import Mathlib

/-!
Shallow embedding of `vscode-micromamba-env-selector` (`src/extension.ts`,
current revision in `src/unnamed/part_002`) and verification of its
specification claims.

Strings are modelled as `List Char`; JavaScript objects (string-keyed
records) as association lists with JS assignment semantics (update in
place, append new keys).  The Node.js `path` library functions used by
the extension (`normalize`, `basename`, `join`) are modelled from the
algorithms in Node's `lib/path.js` for both the POSIX and the Windows
platform; the platform (`process.platform === "win32"`) is the boolean
parameter `isWin`.
-/

set_option maxRecDepth 10000

namespace Micromamba

/-- Convert a string literal to the `List Char` representation used throughout. -/
def chars (s : String) : List Char := s.data

/-- A CR or LF character, the class matched by the `/[\r\n]+/` regexes in the source. -/
def isNL (c : Char) : Bool := c = '\r' || c = '\n'

/-- JavaScript `String.prototype.trim` whitespace (the characters relevant here). -/
def isJsWs (c : Char) : Bool :=
  c = ' ' || c = '\t' || c = '\n' || c = '\r' || c = '\x0b' || c = '\x0c'

/-- JavaScript `String.prototype.trim`: strip whitespace from both ends. -/
def trim (l : List Char) : List Char :=
  ((l.dropWhile isJsWs).reverse.dropWhile isJsWs).reverse

/-- `s.split(/[\r\n]+/)`: split on maximal runs of CR/LF characters.
Empty fields remain only at the two ends, as with the JS regex split.
(A CR/LF character opens a new field only when it is the last character of
its run, i.e. when the character after it is not CR/LF.) -/
def splitRuns : List Char → List (List Char)
  | [] => [[]]
  | c :: cs =>
    if isNL c then
      match cs with
      | c' :: _ => if isNL c' then splitRuns cs else [] :: splitRuns cs
      | [] => [] :: splitRuns cs
    else
      match splitRuns cs with
      | t :: ts => (c :: t) :: ts
      | [] => [[c]]

/-- Split on every single character satisfying `sep` (JS `split('\n')`-style). -/
def splitOnC (sep : Char → Bool) : List Char → List (List Char)
  | [] => [[]]
  | c :: cs =>
    if sep c then
      [] :: splitOnC sep cs
    else
      match splitOnC sep cs with
      | t :: ts => (c :: t) :: ts
      | [] => [[c]]

/-- Join a list of strings with a single-character separator. -/
def joinWith (j : Char) : List (List Char) → List Char
  | [] => []
  | [l] => l
  | l :: ls => l ++ j :: joinWith j ls

/-- JS object lookup `m[k]` (→ `undefined` becomes `none`). -/
def objGet : List (List Char × List Char) → List Char → Option (List Char)
  | [], _ => none
  | (a, b) :: r, k => if a = k then some b else objGet r k

/-- JS object assignment `m[k] = v`: overwrite in place if the key exists,
otherwise append (insertion order preserved, as for `Object.entries`). -/
def objSet (m : List (List Char × List Char)) (k v : List Char) :
    List (List Char × List Char) :=
  if m.any (fun p => p.1 = k) then
    m.map (fun p => if p.1 = k then (k, v) else p)
  else
    m ++ [(k, v)]

/-! ## Node.js `path` model -/

/-- POSIX path separator. -/
def isPosixSep (c : Char) : Bool := c = '/'

/-- Windows path separator (`isPathSeparator` in Node: `/` or `\`). -/
def isWinSep (c : Char) : Bool := c = '/' || c = '\\'

/-- `isWindowsDeviceRoot`: an ASCII letter. -/
def isDeviceRoot (c : Char) : Bool :=
  ('A' ≤ c && c ≤ 'Z') || ('a' ≤ c && c ≤ 'z')

/-- Is the last character of the string a separator? -/
def lastIsSep (sep : Char → Bool) (p : List Char) : Bool :=
  match p.getLast? with
  | some c => sep c
  | none => false

/-- One step of Node's `normalizeString` segment resolution, on a reversed
segment stack: `.` and empty segments are dropped; `..` pops the last real
segment, or is kept (relative paths only, `allow`) when nothing poppable
remains; other segments are pushed. -/
def rstep (allow : Bool) (stack : List (List Char)) (c : List Char) :
    List (List Char) :=
  if c = [] || c = ['.'] then stack
  else if c = ['.', '.'] then
    match stack with
    | top :: rest =>
      if top = ['.', '.'] then (if allow then c :: stack else stack)
      else rest
    | [] => if allow then [c] else []
  else c :: stack

/-- Resolve `.`/`..`/empty segments of a segment list (Node `normalizeString`,
segment level). -/
def resolve (allow : Bool) (cs : List (List Char)) : List (List Char) :=
  (cs.foldl (rstep allow) []).reverse

/-- Node `normalizeString`: split on separators, resolve, and rejoin with the
canonical separator `j`. -/
def normalizeString (sep : Char → Bool) (j : Char) (allow : Bool)
    (p : List Char) : List Char :=
  joinWith j (resolve allow (splitOnC sep p))

/-- Final assembly of `path.posix.normalize`: empty-result special cases,
then the trailing-separator and absolute markers. -/
def posixAssemble (isAbs trailing : Bool) (t0 : List Char) : List Char :=
  if t0 = [] then
    if isAbs then ['/'] else if trailing then ['.', '/'] else ['.']
  else
    if isAbs then '/' :: (if trailing then t0 ++ ['/'] else t0)
    else (if trailing then t0 ++ ['/'] else t0)

/-- Node `path.posix.normalize`. -/
def posixNormalize (p : List Char) : List Char :=
  if p = [] then ['.']
  else
    posixAssemble (isPosixSep p.headI) (lastIsSep isPosixSep p)
      (normalizeString isPosixSep '/' (!isPosixSep p.headI) p)

/-- A segment as kept by `normalizeString`'s resolution: non-empty, not
`.`, and free of separator characters. -/
def goodComp (sep : Char → Bool) (comp : List Char) : Prop :=
  comp ≠ [] ∧ comp ≠ ['.'] ∧ ∀ c ∈ comp, sep c = false

/-- Tail assembly shared by the non-UNC-return cases of
`path.win32.normalize`: normalize the part after the root, re-add the
`.`/trailing-separator adjustments, and glue the device/absolute markers
back on. -/
def win32Assemble (device : Option (List Char)) (isAbs : Bool)
    (tailSrc orig : List Char) : List Char :=
  let t0 := normalizeString isWinSep '\\' (!isAbs) tailSrc
  let t1 := if t0 = [] && !isAbs then ['.'] else t0
  let t2 := if t1 ≠ [] && lastIsSep isWinSep orig then t1 ++ ['\\'] else t1
  match device with
  | none => if isAbs then '\\' :: t2 else t2
  | some d => if isAbs then d ++ '\\' :: t2 else d ++ t2

/-- Node `path.win32.normalize` (root parsing: UNC prefixes, drive-letter
devices, absolute markers; then `normalizeString` on the rest). -/
def win32Normalize : List Char → List Char
  | [] => ['.']
  | [c] => if isWinSep c then ['\\'] else [c]
  | a :: b :: rest =>
    let p := a :: b :: rest
    if isWinSep a then
      if isWinSep b then
        -- possible UNC root  \\server\share
        let server := rest.takeWhile (fun c => !isWinSep c)
        let rest3 := rest.drop server.length
        if server ≠ [] && rest3 ≠ [] then
          let seps2 := rest3.takeWhile isWinSep
          let rest4 := rest3.drop seps2.length
          if rest4 ≠ [] then
            let share := rest4.takeWhile (fun c => !isWinSep c)
            if share.length = rest4.length then
              -- `\\server\share` with nothing after: early return with a
              -- trailing separator
              chars "\\\\" ++ server ++ '\\' :: rest4 ++ ['\\']
            else
              win32Assemble
                (some (chars "\\\\" ++ server ++ '\\' :: share)) true
                (rest4.drop share.length) p
          else
            -- no share component: root parsing fails, rootEnd stays 0
            win32Assemble none true p p
        else
          win32Assemble none true p p
      else
        -- absolute, rootEnd = 1
        win32Assemble none true (b :: rest) p
    else if isDeviceRoot a && b = ':' then
      if rest ≠ [] && isWinSep rest.headI then
        win32Assemble (some [a, ':']) true (rest.drop 1) p
      else
        win32Assemble (some [a, ':']) false rest p
    else
      win32Assemble none false p p

/-- The extension's `normalize` helper (`extension.ts`): `path.normalize`
followed, on Windows, by `toLowerCase`. -/
def normalize (isWin : Bool) (rawPath : List Char) : List Char :=
  let normPath := if isWin then win32Normalize rawPath else posixNormalize rawPath
  if isWin then normPath.map Char.toLower else normPath

/-- Node `path.posix.basename` (no-extension form). -/
def posixBasename (p : List Char) : List Char :=
  ((p.reverse.dropWhile isPosixSep).takeWhile (fun c => !isPosixSep c)).reverse

/-- Node `path.win32.basename` (no-extension form): an initial drive
designator is skipped, then as POSIX with both separators. -/
def win32Basename (p : List Char) : List Char :=
  let q :=
    match p with
    | a :: b :: r => if isDeviceRoot a && b = ':' then r else p
    | _ => p
  ((q.reverse.dropWhile isWinSep).takeWhile (fun c => !isWinSep c)).reverse

/-- Platform-dispatching `path.basename`. -/
def basename (isWin : Bool) (p : List Char) : List Char :=
  if isWin then win32Basename p else posixBasename p

/-- Node `path.posix.join`: concatenate the non-empty parts with `/` and
normalize; an all-empty argument list gives `"."`. -/
def posixJoin (parts : List (List Char)) : List Char :=
  let joined := joinWith '/' (parts.filter (fun l => l ≠ []))
  if joined = [] then ['.'] else posixNormalize joined

/-! ## Configuration resolution (`getMambaConfig`) -/

/-- The cached configuration record (`MambaConfig` in the source; the
`rootPfx` field models `rootPrefix`). -/
structure MambaConfig where
  rootPfx : List Char
  exe : List Char
  envTxtPath : List Char
deriving DecidableEq, Repr

/-- The three `micromamba-envs` workspace settings; in the source each is
read with `config.get<string>(...) || ''`, so an unset setting is the empty
string (`rootPfx` models the `rootPrefix` setting). -/
structure Settings where
  rootPfx : List Char
  micromambaBinary : List Char
  environmentsTxtPath : List Char
deriving DecidableEq, Repr

/-- The two values `fetchMambaVarsFromShell` resolves with
(`rootPfx` models `rootPrefix`). -/
structure ShellVars where
  rootPfx : List Char
  exe : List Char
deriving DecidableEq, Repr

/-- `getMambaConfig` (`extension.ts` lines 51–88).  The process-wide
`cachedMambaConfig` singleton is made explicit as the `cached` argument and
the second component of the result; the shell call
`fetchMambaVarsFromShell()` is made explicit as the `shell` argument (the
outcome it would produce if invoked: `Except.error` for a rejected
promise). -/
def getMambaConfig (settings : Settings) (homedir : List Char)
    (shell : Except Unit ShellVars) (cached : Option MambaConfig) :
    MambaConfig × Option MambaConfig :=
  match cached with
  | some c => (c, some c)
  | none =>
    let rootPfx0 := settings.rootPfx
    let exe0 := settings.micromambaBinary
    let envTxtPath0 := settings.environmentsTxtPath
    let envTxtPath :=
      if envTxtPath0 = [] then
        posixJoin [homedir, chars ".conda", chars "environments.txt"]
      else envTxtPath0
    let (rootPfx1, exe1) :=
      if rootPfx0 = [] || exe0 = [] then
        match shell with
        | .ok v =>
          (if rootPfx0 = [] && v.rootPfx ≠ [] then v.rootPfx else rootPfx0,
           if exe0 = [] && v.exe ≠ [] then v.exe else exe0)
        | .error _ => (rootPfx0, exe0)
      else (rootPfx0, exe0)
    let exe2 := if exe1 = [] then chars "micromamba" else exe1
    let c : MambaConfig := ⟨rootPfx1, exe2, envTxtPath⟩
    (c, some c)

/-! ## Catalog listing (`selectEnvironment`, registry file parsing) -/

/-- The registry parsing in `selectEnvironment`:
`content.split(/[\r\n]+/).filter(line => line.trim() !== '')`. -/
def catalogLines (content : List Char) : List (List Char) :=
  (splitRuns content).filter (fun l => !(trim l).isEmpty)

/-- Rebuild a file content from lines and the separators between them
(used to state the line-ending-independence property). -/
def interleave : List (List Char) → List (List Char) → List Char
  | [], _ => []
  | l :: _, [] => l
  | l :: ls, s :: ss => l ++ s ++ interleave ls ss

/-! ## Classification (`selectEnvironment`, grouping and active marking) -/

/-- A quick-pick entry (`MicromambaEnvItem`). -/
structure Item where
  label : List Char
  description : List Char
  envPath : List Char
deriving DecidableEq, Repr

/-- `storedPath ? normalize(storedPath) : ''`: the normalized previously
persisted active path, with JS falsiness of the empty string. -/
def activeKey (isWin : Bool) (stored : Option (List Char)) : List Char :=
  match stored with
  | some s => if s = [] then [] else normalize isWin s
  | none => []

/-- The workspace membership test of the loop:
`currentWorkspacePath && normalizedPath.startsWith(currentWorkspacePath)`
(`cw` is the already-normalized workspace path, or `none`). -/
def wsTestB (cw : Option (List Char)) (np : List Char) : Bool :=
  match cw with
  | some w => w.isPrefixOf np
  | none => false

/-- The root-prefix membership test of the loop:
`normalizedRootPrefix && normalizedPath.startsWith(normalizedRootPrefix)`
(`nrp` is the already-normalized root prefix, `''` when unconfigured). -/
def rpTestB (nrp np : List Char) : Bool :=
  !nrp.isEmpty && nrp.isPrefixOf np

/-- The quick-pick item built for one registry entry in the
`lines.forEach` loop of `selectEnvironment` (`part_002` lines 168–198):
icon by classification, checkmark label and `(Active)` description when
the entry is the active one. -/
def mkItem (isWin : Bool) (cw : Option (List Char)) (ak envPath : List Char) :
    Item :=
  let normalizedPath := normalize isWin envPath
  let label := basename isWin normalizedPath
  let icon := if wsTestB cw normalizedPath then chars "$(project)"
              else chars "$(globe)"
  if ak == normalizedPath then
    ⟨chars "$(check) " ++ icon ++ ' ' :: label,
     chars "(Active) " ++ normalizedPath, normalizedPath⟩
  else
    ⟨icon ++ ' ' :: label, normalizedPath, normalizedPath⟩

/-- The body of the `lines.forEach` loop in `selectEnvironment`
(`part_002` lines 168–206), acting on the accumulated
(workspace items, root items, captured active item) triple. -/
def classifyStep (isWin : Bool) (cw : Option (List Char)) (ak nrp : List Char)
    (acc : List Item × List Item × Option Item) (envPath : List Char) :
    List Item × List Item × Option Item :=
  let normalizedPath := normalize isWin envPath
  let item := mkItem isWin cw ak envPath
  let act' := if ak == normalizedPath then some item else acc.2.2
  if wsTestB cw normalizedPath then
    (acc.1 ++ [item], acc.2.1, act')
  else if rpTestB nrp normalizedPath then
    (acc.1, acc.2.1 ++ [item], act')
  else
    (acc.1, acc.2.1, act')

/-- The whole classification pass of `selectEnvironment`: produces the
`workspaceItems` and `rootItems` groups and the captured `activeItem`.
`wsOpt` is the raw first-workspace-folder path (or `none`), `rootPfx` the
configured root prefix (`''` when unset), `stored` the persisted
`currentMicromambaEnvPath`, `lines` the catalog entries. -/
def buildLists (isWin : Bool) (wsOpt : Option (List Char))
    (rootPfx : List Char) (stored : Option (List Char))
    (lines : List (List Char)) : List Item × List Item × Option Item :=
  let cw := wsOpt.map (normalize isWin)
  let ak := activeKey isWin stored
  let nrp := if rootPfx = [] then [] else normalize isWin rootPfx
  lines.foldl (classifyStep isWin cw ak nrp) ([], [], none)

/-- An entry of the produced listing carries the active marking
(`$(check)` checkmark prefix on its label). -/
def markedActive (it : Item) : Bool :=
  (chars "$(check) ").isPrefixOf it.label

/-! ## Activation (`setEnvironment`, `parseEnvOutput`, `writeEnvFile`) -/

/-- The body of the `lines.forEach` loop of `parseEnvOutput`: skip empty
lines and lines without `=`; otherwise split at the first `=`, trim both
sides, and assign. -/
def envLineStep (envs : List (List Char × List Char)) (line : List Char) :
    List (List Char × List Char) :=
  if line.isEmpty || !line.contains '=' then envs
  else
    let key := trim (line.takeWhile (fun c => c ≠ '='))
    let value := trim ((line.dropWhile (fun c => c ≠ '=')).drop 1)
    objSet envs key value

/-- `parseEnvOutput` (`extension.ts`): split the subprocess stdout on runs
of CR/LF and process each line. -/
def parseEnvOutput (output : List Char) : List (List Char × List Char) :=
  (splitRuns output).foldl envLineStep []

/-- JS falsiness of `envVars[k]`: the key is absent or maps to `''`. -/
def falsyAt (m : List (List Char × List Char)) (k : List Char) : Bool :=
  match objGet m k with
  | none => true
  | some v => v.isEmpty

/-- First defaulting step of `setEnvironment`:
`if (!envVars['CONDA_DEFAULT_ENV']) envVars['CONDA_DEFAULT_ENV'] = envNameDisplay`
where `envNameDisplay = path.basename(envPath)`. -/
def applyNameDefault (isWin : Bool) (envPath : List Char)
    (envVars : List (List Char × List Char)) : List (List Char × List Char) :=
  if falsyAt envVars (chars "CONDA_DEFAULT_ENV") then
    objSet envVars (chars "CONDA_DEFAULT_ENV") (basename isWin envPath)
  else envVars

/-- Second defaulting step of `setEnvironment`:
`if (!envVars['CONDA_PREFIX']) envVars['CONDA_PREFIX'] = envPath`. -/
def applyPfxDefault (envPath : List Char)
    (envVars : List (List Char × List Char)) : List (List Char × List Char) :=
  if falsyAt envVars (chars "CONDA_PREFIX") then
    objSet envVars (chars "CONDA_PREFIX") envPath
  else envVars

/-- The `CONDA_DEFAULT_ENV` / `CONDA_PREFIX` defaulting in
`setEnvironment` (`part_002` lines 287–293). -/
def applyDefaults (isWin : Bool) (envPath : List Char)
    (envVars : List (List Char × List Char)) : List (List Char × List Char) :=
  applyPfxDefault envPath (applyNameDefault isWin envPath envVars)

/-- `value.replace(/"/g, '\\"')`: backslash-escape every double quote. -/
def escapeQuotes : List Char → List Char
  | [] => []
  | c :: r => if c = '"' then '\\' :: '"' :: escapeQuotes r else c :: escapeQuotes r

/-- One line of the `.env` file built by `writeEnvFile`:
`` `${key}="${value.replace(/"/g, '\\"')}"\n` ``. -/
def envLineOf (p : List Char × List Char) : List Char :=
  p.1 ++ '=' :: '"' :: (escapeQuotes p.2 ++ ['"', '\n'])

/-- The file content built by `writeEnvFile`: one `NAME="value"` line per
variable, in `Object.entries` order. -/
def writeEnvContent (envs : List (List Char × List Char)) : List Char :=
  envs.foldl (fun content p => content ++ envLineOf p) []

/-- The three effect targets of an activation attempt, plus the status-bar
text: the terminal `environmentVariableCollection` (fully replaced on
success), the workspace `.env` file content, and the persisted
`currentMicromambaEnvPath` workspace-state key.  (The Python-extension
interpreter setting also touched by the callback is editor configuration
outside these targets and is not part of this state.) -/
structure EffectsState where
  varCollection : List (List Char × List Char)
  envFile : Option (List Char)
  persisted : Option (List Char)
  statusText : List Char
deriving DecidableEq, Repr

/-- The `cp.exec` completion callback of `setEnvironment` (`part_002`
lines 277–348) as a transition on the effect state.  `res` is the
subprocess outcome: `Except.error` for a spawn failure or non-zero exit
(the `err` branch), `Except.ok stdout` otherwise.  `hasWorkspace` models
`vscode.workspace.workspaceFolders` being non-empty. -/
def setEnvironmentCallback (isWin hasWorkspace : Bool) (envPath : List Char)
    (res : Except (List Char) (List Char)) (s : EffectsState) : EffectsState :=
  match res with
  | .error _ =>
    { s with statusText := chars "$(error) Micromamba: Error" }
  | .ok stdout =>
    let envVars := applyDefaults isWin envPath (parseEnvOutput stdout)
    let s1 := { s with varCollection := envVars }
    let s2 :=
      if hasWorkspace then { s1 with envFile := some (writeEnvContent envVars) }
      else s1
    { s2 with
      persisted := some envPath,
      statusText := chars "$(check) " ++ basename isWin envPath }

/-! ## A standard `.env` reader (for the round-trip claim)

The writer's counterpart is not part of the repository; it is modelled
from the spec. -/

/-- Modelled from the spec: the value scanner of a standard `NAME="value"`
reader that unescapes backslash-quote — consume until the closing
unescaped `"`, which must end the line; `\"` yields a literal `"`. -/
def unquoteClosed : List Char → Option (List Char)
  | [] => none
  | '"' :: rest => if rest = [] then some [] else none
  | '\\' :: '"' :: rest => (unquoteClosed rest).map (fun v => '"' :: v)
  | c :: rest => (unquoteClosed rest).map (fun v => c :: v)

/-- Modelled from the spec: read one `NAME="value"` line — the name before
the first `=`, then a double-quoted value with `\"` unescaped. -/
def readEnvLine (line : List Char) : Option (List Char × List Char) :=
  let name := line.takeWhile (fun c => c ≠ '=')
  if name.isEmpty || !line.contains '=' then none
  else
    match (line.dropWhile (fun c => c ≠ '=')).drop 1 with
    | '"' :: body => (unquoteClosed body).map (fun v => (name, v))
    | _ => none

/-- Read a list of lines strictly: `none` as soon as one line is malformed. -/
def readAll : List (List Char) → Option (List (List Char × List Char))
  | [] => some []
  | l :: ls =>
    match readEnvLine l, readAll ls with
    | some p, some ps => some (p :: ps)
    | _, _ => none

/-- Modelled from the spec: a standard `NAME="value"` reader for a whole
`.env` file — split on newlines, skip blank lines, parse every line. -/
def readEnvContent (content : List Char) :
    Option (List (List Char × List Char)) :=
  readAll ((splitOnC (fun c => c = '\n') content).filter (fun l => l ≠ []))

/-! ## General helper lemmas -/

theorem foldl_filter_of_skip {α β : Type} (f : β → α → β) (p : α → Bool)
    (hskip : ∀ b x, p x = false → f b x = b) :
    ∀ (l : List α) (b : β), l.foldl f b = (l.filter p).foldl f b := by
  intro l
  induction l with
  | nil => intro b; rfl
  | cons x xs ih =>
    intro b
    by_cases hx : p x
    · simp [List.filter_cons, hx, List.foldl_cons, ih]
    · simp only [Bool.not_eq_true] at hx
      simp [List.filter_cons, hx, List.foldl_cons, hskip b x hx, ih]

theorem dropWhile_eq_self_of_head {p : Char → Bool} :
    ∀ {l : List Char}, (∀ c, l.head? = some c → p c = false) →
      l.dropWhile p = l := by
  intro l h
  cases l with
  | nil => rfl
  | cons c cs =>
    have := h c rfl
    simp [List.dropWhile_cons, this]

theorem head_dropWhile_false {p : Char → Bool} :
    ∀ (l : List Char) (c : Char), (l.dropWhile p).head? = some c → p c = false := by
  intro l
  induction l with
  | nil => intro c h; simp at h
  | cons x xs ih =>
    intro c h
    by_cases hx : p x
    · rw [List.dropWhile_cons, if_pos hx] at h
      exact ih c h
    · rw [List.dropWhile_cons, if_neg hx] at h
      simp only [List.head?_cons, Option.some.injEq] at h
      subst h
      simpa using hx

theorem getLast_dropWhile_of_ne_nil {p : Char → Bool} (l : List Char)
    (h : l.dropWhile p ≠ []) : (l.dropWhile p).getLast? = l.getLast? := by
  obtain ⟨t, ht⟩ := (List.dropWhile_suffix (l := l) p)
  conv_rhs => rw [← ht]
  exact (List.getLast?_append_of_ne_nil t h).symm

theorem trim_head_false : ∀ (l : List Char) (c : Char),
    (trim l).head? = some c → isJsWs c = false := by
  intro l c h
  unfold trim at h
  rw [List.head?_reverse] at h
  set B := ((l.dropWhile isJsWs).reverse.dropWhile isJsWs) with hB
  have hBne : B ≠ [] := by
    intro hnil
    rw [hnil] at h
    simp at h
  have := getLast_dropWhile_of_ne_nil (p := isJsWs) (l.dropWhile isJsWs).reverse
    (by rw [← hB]; exact hBne)
  rw [← hB] at this
  rw [this, List.getLast?_reverse] at h
  exact head_dropWhile_false _ _ h

theorem trim_getLast_false : ∀ (l : List Char) (c : Char),
    (trim l).getLast? = some c → isJsWs c = false := by
  intro l c h
  unfold trim at h
  rw [List.getLast?_reverse] at h
  exact head_dropWhile_false _ _ h

theorem trim_idem (l : List Char) : trim (trim l) = trim l := by
  have h1 : (trim l).dropWhile isJsWs = trim l :=
    dropWhile_eq_self_of_head (fun c hc => trim_head_false l c hc)
  have h2 : (trim l).reverse.dropWhile isJsWs = (trim l).reverse := by
    refine dropWhile_eq_self_of_head ?_
    intro c hc
    rw [List.head?_reverse] at hc
    exact trim_getLast_false l c hc
  show (((trim l).dropWhile isJsWs).reverse.dropWhile isJsWs).reverse = trim l
  rw [h1, h2, List.reverse_reverse]

theorem objGet_none_of_any_false (m : List (List Char × List Char))
    (k : List Char) (hmem : m.any (fun p => p.1 = k) = false) :
    objGet m k = none := by
  induction m with
  | nil => rfl
  | cons q m ih =>
    simp only [List.any_cons, Bool.or_eq_false_iff, decide_eq_false_iff_not] at hmem
    simp only [objGet, if_neg hmem.1]
    exact ih hmem.2

theorem objGet_concat (m : List (List Char × List Char)) (k v k' : List Char) :
    objGet (m ++ [(k, v)]) k'
      = match objGet m k' with
        | some w => some w
        | none => if k' = k then some v else none := by
  induction m with
  | nil =>
    show objGet [(k, v)] k' = _
    by_cases hk' : k' = k
    · subst hk'; simp [objGet]
    · have hk : ¬k = k' := fun hh => hk' hh.symm
      simp [objGet, hk, hk']
  | cons q m ih =>
    show objGet (q :: (m ++ [(k, v)])) k' = _
    by_cases hqk' : q.1 = k'
    · simp [objGet, if_pos hqk']
    · simp only [objGet, if_neg hqk']
      exact ih

theorem objGet_map_upd_ne (m : List (List Char × List Char))
    (k v k' : List Char) (hk' : k' ≠ k) :
    objGet (m.map (fun p => if p.1 = k then (k, v) else p)) k' = objGet m k' := by
  induction m with
  | nil => rfl
  | cons q m ih =>
    simp only [List.map_cons]
    by_cases hq : q.1 = k
    · rw [if_pos hq]
      show objGet ((k, v) :: _) k' = _
      simp only [objGet, if_neg (fun hh : k = k' => hk' hh.symm), ih]
      rw [if_neg (fun hh : q.1 = k' => hk' (hq ▸ hh).symm)]
    · rw [if_neg hq]
      show objGet (q :: _) k' = _
      by_cases hqk' : q.1 = k'
      · simp [objGet, if_pos hqk']
      · simp only [objGet, if_neg hqk']
        exact ih

theorem objGet_map_upd_eq (m : List (List Char × List Char)) (k v : List Char)
    (hmem : m.any (fun p => p.1 = k) = true) :
    objGet (m.map (fun p => if p.1 = k then (k, v) else p)) k = some v := by
  induction m with
  | nil => simp at hmem
  | cons q m ih =>
    simp only [List.any_cons, Bool.or_eq_true, decide_eq_true_eq] at hmem
    simp only [List.map_cons]
    by_cases hq : q.1 = k
    · rw [if_pos hq]
      show objGet ((k, v) :: _) k = _
      simp [objGet]
    · rw [if_neg hq]
      show objGet (q :: _) k = _
      simp only [objGet, if_neg hq]
      rcases hmem with h | h
      · exact absurd h hq
      · exact ih h

theorem objGet_objSet (m : List (List Char × List Char)) (k v k' : List Char) :
    objGet (objSet m k v) k' = if k' = k then some v else objGet m k' := by
  unfold objSet
  by_cases hmem : m.any (fun p => p.1 = k)
  · rw [if_pos hmem]
    by_cases hk' : k' = k
    · subst hk'
      rw [if_pos rfl]
      exact objGet_map_upd_eq m k' v hmem
    · rw [if_neg hk']
      exact objGet_map_upd_ne m k v k' hk'
  · rw [if_neg hmem]
    rw [objGet_concat]
    by_cases hk' : k' = k
    · subst hk'
      rw [objGet_none_of_any_false m k' (Bool.eq_false_iff.mpr hmem)]
    · cases h : objGet m k' with
      | some w => simp [if_neg hk']
      | none => simp [if_neg hk']

theorem mem_objSet (m : List (List Char × List Char)) (k v : List Char)
    (q : List Char × List Char) (hq : q ∈ objSet m k v) :
    q = (k, v) ∨ q ∈ m := by
  unfold objSet at hq
  by_cases hmem : m.any (fun p => p.1 = k)
  · rw [if_pos hmem] at hq
    rcases List.mem_map.mp hq with ⟨p, hp, hpq⟩
    by_cases hpk : p.1 = k
    · left; rw [← hpq, if_pos hpk]
    · right; rw [← hpq, if_neg hpk]; exact hp
  · rw [if_neg hmem] at hq
    rcases List.mem_append.mp hq with h | h
    · right; exact h
    · left; simpa using h

theorem keys_objSet_nodup (m : List (List Char × List Char)) (k v : List Char)
    (h : (m.map Prod.fst).Nodup) : ((objSet m k v).map Prod.fst).Nodup := by
  unfold objSet
  by_cases hmem : m.any (fun p => p.1 = k)
  · rw [if_pos hmem]
    have : (m.map (fun p => if p.1 = k then (k, v) else p)).map Prod.fst
        = m.map Prod.fst := by
      rw [List.map_map]
      apply List.map_congr_left
      intro p _
      by_cases hpk : p.1 = k
      · simp [hpk]
      · simp [hpk]
    rw [this]
    exact h
  · rw [if_neg hmem, List.map_append]
    simp only [List.map_cons, List.map_nil]
    rw [List.nodup_append]
    refine ⟨h, List.nodup_singleton k, ?_⟩
    intro a ha hb
    simp only [List.mem_singleton] at hb
    subst hb
    rcases List.mem_map.mp ha with ⟨p, hp, hpk⟩
    have hany : m.any (fun q => q.1 = a) = true := by
      refine List.any_eq_true.mpr ⟨p, hp, ?_⟩
      simp [hpk]
    exact hmem hany

theorem foldl_congr_mem {α β : Type} (f g : β → α → β) :
    ∀ (l : List α) (b : β), (∀ b x, x ∈ l → f b x = g b x) →
      l.foldl f b = l.foldl g b := by
  intro l
  induction l with
  | nil => intro b _; rfl
  | cons x xs ih =>
    intro b h
    simp only [List.foldl_cons]
    rw [h b x (List.mem_cons_self x xs)]
    exact ih _ (fun b y hy => h b y (List.mem_cons_of_mem x hy))

theorem envLineStep_skip (envs : List (List Char × List Char))
    (line : List Char) (h : line.contains '=' = false) :
    envLineStep envs line = envs := by
  have h' : ¬('=' ∈ line) := by simpa using h
  simp [envLineStep, h']

theorem envLineStep_keep (envs : List (List Char × List Char))
    (line : List Char) (h : line.contains '=' = true) :
    envLineStep envs line
      = objSet envs (trim (line.takeWhile (fun c => c ≠ '=')))
          (trim ((line.dropWhile (fun c => c ≠ '=')).drop 1)) := by
  have hie : line.isEmpty = false := by
    cases line with
    | nil => simp at h
    | cons c cs => rfl
  have h' : '=' ∈ line := by simpa using h
  simp [envLineStep, h', hie]

theorem parseEnvOutput_eq_filter (output : List Char) :
    parseEnvOutput output
      = ((splitRuns output).filter (fun l => l.contains '=')).foldl envLineStep [] :=
  foldl_filter_of_skip envLineStep _
    (fun b x hx => envLineStep_skip b x hx) _ _

theorem foldl_envLineStep_pairs :
    ∀ (lines : List (List Char)) (envs : List (List Char × List Char)),
      (∀ p ∈ envs, trim p.1 = p.1 ∧ trim p.2 = p.2) →
      ∀ p ∈ lines.foldl envLineStep envs, trim p.1 = p.1 ∧ trim p.2 = p.2 := by
  intro lines
  induction lines with
  | nil => intro envs h p hp; exact h p hp
  | cons l ls ih =>
    intro envs h p hp
    simp only [List.foldl_cons] at hp
    refine ih (envLineStep envs l) ?_ p hp
    intro q hq
    by_cases hc : l.contains '='
    · rw [envLineStep_keep envs l hc] at hq
      rcases mem_objSet _ _ _ q hq with hq' | hq'
      · rw [hq']
        exact ⟨trim_idem _, trim_idem _⟩
      · exact h q hq'
    · rw [envLineStep_skip envs l (Bool.eq_false_iff.mpr hc)] at hq
      exact h q hq

theorem foldl_envLineStep_nodup :
    ∀ (lines : List (List Char)) (envs : List (List Char × List Char)),
      (envs.map Prod.fst).Nodup →
      ((lines.foldl envLineStep envs).map Prod.fst).Nodup := by
  intro lines
  induction lines with
  | nil => intro envs h; exact h
  | cons l ls ih =>
    intro envs h
    simp only [List.foldl_cons]
    refine ih (envLineStep envs l) ?_
    by_cases hc : l.contains '='
    · rw [envLineStep_keep envs l hc]
      exact keys_objSet_nodup _ _ _ h
    · rw [envLineStep_skip envs l (Bool.eq_false_iff.mpr hc)]
      exact h

theorem objGet_foldl_envLineStep :
    ∀ (lines : List (List Char)) (envs : List (List Char × List Char))
      (k : List Char), (∀ l ∈ lines, l.contains '=' = true) →
      objGet (lines.foldl envLineStep envs) k
        = lines.foldl
            (fun acc line =>
              if trim (line.takeWhile (fun c => c ≠ '=')) = k then
                some (trim ((line.dropWhile (fun c => c ≠ '=')).drop 1))
              else acc)
            (objGet envs k) := by
  intro lines
  induction lines with
  | nil => intro envs k _; rfl
  | cons l ls ih =>
    intro envs k hall
    simp only [List.foldl_cons]
    rw [ih _ k (fun x hx => hall x (List.mem_cons_of_mem l hx))]
    rw [envLineStep_keep envs l (hall l (List.mem_cons_self l ls))]
    rw [objGet_objSet]
    by_cases hk : trim (l.takeWhile (fun c => c ≠ '=')) = k
    · rw [if_pos hk, if_pos hk.symm]
    · rw [if_neg hk, if_neg (fun hh => hk hh.symm)]

theorem splitOnC_ne_nil (sep : Char → Bool) :
    ∀ l : List Char, splitOnC sep l ≠ [] := by
  intro l
  cases l with
  | nil => simp [splitOnC]
  | cons c cs =>
    unfold splitOnC
    by_cases h : sep c
    · simp [h]
    · simp only [h]
      cases splitOnC sep cs <;> simp

theorem splitOnC_sepHead (sep : Char → Bool) (c : Char) (rest : List Char)
    (h : sep c = true) :
    splitOnC sep (c :: rest) = [] :: splitOnC sep rest := by
  conv_lhs => rw [splitOnC]
  rw [if_pos h]

theorem splitOnC_noSep_append (sep : Char → Bool) :
    ∀ (l rest : List Char) (t : List Char) (ts : List (List Char)),
      (∀ c ∈ l, sep c = false) → splitOnC sep rest = t :: ts →
      splitOnC sep (l ++ rest) = (l ++ t) :: ts := by
  intro l
  induction l with
  | nil => intro rest t ts _ h; simpa using h
  | cons c l ih =>
    intro rest t ts hall h
    have hc : sep c = false := hall c (List.mem_cons_self c l)
    have hrec := ih rest t ts (fun x hx => hall x (List.mem_cons_of_mem c hx)) h
    show splitOnC sep (c :: (l ++ rest)) = ((c :: l) ++ t) :: ts
    conv_lhs => rw [splitOnC]
    rw [hc]
    simp only [Bool.false_eq_true, if_false, hrec, List.cons_append]

theorem mem_escapeQuotes : ∀ (v : List Char) (c : Char),
    c ∈ escapeQuotes v → c ∈ v ∨ c = '\\' := by
  intro v
  induction v with
  | nil => intro c h; simp [escapeQuotes] at h
  | cons x v ih =>
    intro c h
    unfold escapeQuotes at h
    by_cases hx : x = '"'
    · rw [if_pos hx] at h
      rw [List.mem_cons] at h
      rcases h with h | h
      · right; exact h
      · rw [List.mem_cons] at h
        rcases h with h | h
        · left; rw [hx]; exact h ▸ List.mem_cons_self _ _
        · rcases ih c h with h' | h'
          · left; exact List.mem_cons_of_mem x h'
          · right; exact h'
    · rw [if_neg hx] at h
      rw [List.mem_cons] at h
      rcases h with h | h
      · left; exact h ▸ List.mem_cons_self _ _
      · rcases ih c h with h' | h'
        · left; exact List.mem_cons_of_mem x h'
        · right; exact h'

theorem unquoteClosed_cons_other (c : Char) (rest : List Char)
    (h1 : c ≠ '"') (h2 : c ≠ '\\') :
    unquoteClosed (c :: rest) = (unquoteClosed rest).map (fun v => c :: v) := by
  simp [unquoteClosed, h1, h2]

theorem unquoteClosed_escape : ∀ v : List Char, '\\' ∉ v →
    unquoteClosed (escapeQuotes v ++ ['"']) = some v := by
  intro v
  induction v with
  | nil => intro _; rfl
  | cons c v ih =>
    intro h
    have hc : c ≠ '\\' := fun hh => h (hh ▸ List.mem_cons_self c v)
    have hv : '\\' ∉ v := fun hh => h (List.mem_cons_of_mem c hh)
    by_cases hq : c = '"'
    · subst hq
      have he : escapeQuotes ('"' :: v) = '\\' :: '"' :: escapeQuotes v := by
        simp [escapeQuotes]
      rw [he]
      show (unquoteClosed (escapeQuotes v ++ ['"'])).map (fun w => '"' :: w) = _
      rw [ih hv]
      rfl
    · have he : escapeQuotes (c :: v) = c :: escapeQuotes v := by
        simp [escapeQuotes, hq]
      rw [he, List.cons_append, unquoteClosed_cons_other c _ hq hc, ih hv]
      rfl

theorem takeWhile_all_append (p : Char → Bool) :
    ∀ (l : List Char) (x : Char) (r : List Char),
      (∀ c ∈ l, p c = true) → p x = false →
      ((l ++ x :: r).takeWhile p = l ∧ (l ++ x :: r).dropWhile p = x :: r) := by
  intro l
  induction l with
  | nil =>
    intro x r _ hx
    constructor
    · simp [List.takeWhile_cons, hx]
    · simp [List.dropWhile_cons, hx]
  | cons c l ih =>
    intro x r hall hx
    have hc : p c = true := hall c (List.mem_cons_self c l)
    obtain ⟨h1, h2⟩ := ih x r (fun y hy => hall y (List.mem_cons_of_mem c hy)) hx
    constructor
    · simp [List.takeWhile_cons, hc, h1]
    · simp [List.dropWhile_cons, hc, h2]

theorem writeEnvContent_cons_aux :
    ∀ (m : List (List Char × List Char)) (c : List Char),
      m.foldl (fun content p => content ++ envLineOf p) c
        = c ++ m.foldl (fun content p => content ++ envLineOf p) [] := by
  intro m
  induction m with
  | nil => intro c; simp
  | cons p m ih =>
    intro c
    simp only [List.foldl_cons, List.nil_append]
    rw [ih (c ++ envLineOf p), ih (envLineOf p)]
    simp [List.append_assoc]

theorem writeEnvContent_cons (p : List Char × List Char)
    (m : List (List Char × List Char)) :
    writeEnvContent (p :: m) = envLineOf p ++ writeEnvContent m := by
  unfold writeEnvContent
  simp only [List.foldl_cons, List.nil_append]
  exact writeEnvContent_cons_aux m (envLineOf p)

theorem readEnvLine_envLine (k v : List Char) (hk : k ≠ []) (hke : '=' ∉ k)
    (hv : '\\' ∉ v) :
    readEnvLine (k ++ '=' :: '"' :: (escapeQuotes v ++ ['"'])) = some (k, v) := by
  have hall : ∀ c ∈ k, (fun c => decide (c ≠ '=')) c = true := by
    intro c hc
    simp only [decide_eq_true_eq]
    intro hh
    exact hke (hh ▸ hc)
  obtain ⟨htake, hdrop⟩ :=
    takeWhile_all_append (fun c => decide (c ≠ '=')) k '='
      ('"' :: (escapeQuotes v ++ ['"'])) hall (by simp)
  have hkie : k.isEmpty = false := by
    cases k with
    | nil => exact absurd rfl hk
    | cons a b => rfl
  have hmem : '=' ∈ k ++ '=' :: '"' :: (escapeQuotes v ++ ['"']) := by
    refine List.mem_append.mpr (Or.inr ?_)
    exact List.mem_cons_self _ _
  unfold readEnvLine
  rw [htake]
  rw [if_neg]
  · rw [hdrop]
    simp only [List.drop_one, List.tail_cons]
    rw [unquoteClosed_escape v hv]
    rfl
  · simp [hkie, hmem]

theorem splitRuns_nl_nil (c : Char) (hc : isNL c = true) :
    splitRuns [c] = [] :: splitRuns [] := by
  rw [splitRuns.eq_def]
  show (if isNL c = true then _ else _) = _
  rw [if_pos hc]

theorem splitRuns_nl_nl (c c2 : Char) (cs : List Char) (hc : isNL c = true)
    (h2 : isNL c2 = true) :
    splitRuns (c :: c2 :: cs) = splitRuns (c2 :: cs) := by
  rw [splitRuns.eq_def]
  show (if isNL c = true then _ else _) = _
  rw [if_pos hc]
  show (if isNL c2 = true then splitRuns (c2 :: cs) else _) = _
  rw [if_pos h2]

theorem splitRuns_nl_other (c c2 : Char) (cs : List Char) (hc : isNL c = true)
    (h2 : isNL c2 = false) :
    splitRuns (c :: c2 :: cs) = [] :: splitRuns (c2 :: cs) := by
  rw [splitRuns.eq_def]
  show (if isNL c = true then _ else _) = _
  rw [if_pos hc]
  show (if isNL c2 = true then _ else [] :: splitRuns (c2 :: cs)) = _
  rw [if_neg (by simp [h2])]

theorem splitRuns_other (c : Char) (cs : List Char) (hc : isNL c = false) :
    splitRuns (c :: cs)
      = match splitRuns cs with
        | t :: ts => (c :: t) :: ts
        | [] => [[c]] := by
  rw [splitRuns.eq_def]
  show (if isNL c = true then _ else _) = _
  rw [if_neg (by simp [hc])]

theorem splitRuns_noNL_append :
    ∀ (l rest t : List Char) (ts : List (List Char)),
      (∀ c ∈ l, isNL c = false) → splitRuns rest = t :: ts →
      splitRuns (l ++ rest) = (l ++ t) :: ts := by
  intro l
  induction l with
  | nil => intro rest t ts _ h; simpa using h
  | cons c l ih =>
    intro rest t ts hall h
    have hc : isNL c = false := hall c (List.mem_cons_self c l)
    have hrec := ih rest t ts (fun x hx => hall x (List.mem_cons_of_mem c hx)) h
    show splitRuns (c :: (l ++ rest)) = ((c :: l) ++ t) :: ts
    rw [splitRuns_other c _ hc, hrec]
    rfl

theorem splitRuns_nlhead :
    ∀ (cs : List Char) (c : Char), isNL c = true →
      ∃ ts, splitRuns (c :: cs) = [] :: ts := by
  intro cs
  induction cs with
  | nil =>
    intro c hc
    exact ⟨splitRuns [], splitRuns_nl_nil c hc⟩
  | cons c2 cs ih =>
    intro c hc
    by_cases h2 : isNL c2 = true
    · obtain ⟨ts, hts⟩ := ih c2 h2
      exact ⟨ts, by rw [splitRuns_nl_nl c c2 cs hc h2, hts]⟩
    · exact ⟨splitRuns (c2 :: cs),
        splitRuns_nl_other c c2 cs hc (Bool.eq_false_iff.mpr h2)⟩

theorem splitRuns_sep_filter (p : List Char → Bool) (hp : p [] = false) :
    ∀ (sep rest : List Char), sep ≠ [] → (∀ c ∈ sep, isNL c = true) →
      ∃ ts, splitRuns (sep ++ rest) = [] :: ts
        ∧ ts.filter p = (splitRuns rest).filter p := by
  intro sep
  induction sep with
  | nil => intro rest h _; exact absurd rfl h
  | cons c sep' ih =>
    intro rest _ hall
    have hc : isNL c = true := hall c (List.mem_cons_self c sep')
    cases sep' with
    | nil =>
      cases rest with
      | nil =>
        exact ⟨splitRuns [], splitRuns_nl_nil c hc, rfl⟩
      | cons r rs =>
        by_cases hr : isNL r = true
        · obtain ⟨ts, hts⟩ := splitRuns_nlhead rs r hr
          refine ⟨ts, ?_, ?_⟩
          · show splitRuns (c :: r :: rs) = [] :: ts
            rw [splitRuns_nl_nl c r rs hc hr, hts]
          · rw [hts, List.filter_cons_of_neg (by simpa using hp)]
        · exact ⟨splitRuns (r :: rs),
            splitRuns_nl_other c r rs hc (Bool.eq_false_iff.mpr hr), rfl⟩
    | cons c2 sep'' =>
      have h2 : isNL c2 = true :=
        hall c2 (List.mem_cons_of_mem c (List.mem_cons_self c2 sep''))
      obtain ⟨ts, hts, hfil⟩ := ih rest (by simp)
        (fun x hx => hall x (List.mem_cons_of_mem c hx))
      refine ⟨ts, ?_, hfil⟩
      show splitRuns (c :: (c2 :: (sep'' ++ rest))) = [] :: ts
      rw [splitRuns_nl_nl c c2 _ hc h2]
      exact hts

theorem isPrefixOf_append_self (l r : List Char) : l.isPrefixOf (l ++ r) = true := by
  rw [List.isPrefixOf_iff_prefix]
  exact List.prefix_append l r

theorem mkItem_envPath (isWin : Bool) (cw : Option (List Char)) (ak envPath : List Char) :
    (mkItem isWin cw ak envPath).envPath = normalize isWin envPath := by
  unfold mkItem
  by_cases h : (ak == normalize isWin envPath) = true
  · simp [h]
  · simp [h]

theorem markedActive_mkItem (isWin : Bool) (cw : Option (List Char)) (ak envPath : List Char) :
    markedActive (mkItem isWin cw ak envPath) = (ak == normalize isWin envPath) := by
  by_cases h : (ak == normalize isWin envPath) = true
  · rw [h]
    unfold markedActive mkItem
    simp only [h, if_true, List.append_assoc]
    exact isPrefixOf_append_self _ _
  · have hf : (ak == normalize isWin envPath) = false := Bool.eq_false_iff.mpr h
    rw [hf]
    unfold markedActive mkItem
    simp only [hf, Bool.false_eq_true, if_false]
    by_cases hw : wsTestB cw (normalize isWin envPath) = true
    · simp only [hw, if_true]
      rfl
    · simp only [hw, Bool.false_eq_true, if_false]
      rfl

theorem classifyStep_ws (isWin : Bool) (cw : Option (List Char)) (ak nrp : List Char)
    (acc : List Item × List Item × Option Item) (envPath : List Char)
    (hw : wsTestB cw (normalize isWin envPath) = true) :
    classifyStep isWin cw ak nrp acc envPath
      = (acc.1 ++ [mkItem isWin cw ak envPath], acc.2.1,
         if ak == normalize isWin envPath then some (mkItem isWin cw ak envPath)
         else acc.2.2) := by
  simp [classifyStep, hw]

theorem classifyStep_rt (isWin : Bool) (cw : Option (List Char)) (ak nrp : List Char)
    (acc : List Item × List Item × Option Item) (envPath : List Char)
    (hw : wsTestB cw (normalize isWin envPath) = false)
    (hr : rpTestB nrp (normalize isWin envPath) = true) :
    classifyStep isWin cw ak nrp acc envPath
      = (acc.1, acc.2.1 ++ [mkItem isWin cw ak envPath],
         if ak == normalize isWin envPath then some (mkItem isWin cw ak envPath)
         else acc.2.2) := by
  simp [classifyStep, hw, hr]

theorem classifyStep_drop (isWin : Bool) (cw : Option (List Char)) (ak nrp : List Char)
    (acc : List Item × List Item × Option Item) (envPath : List Char)
    (hw : wsTestB cw (normalize isWin envPath) = false)
    (hr : rpTestB nrp (normalize isWin envPath) = false) :
    classifyStep isWin cw ak nrp acc envPath
      = (acc.1, acc.2.1,
         if ak == normalize isWin envPath then some (mkItem isWin cw ak envPath)
         else acc.2.2) := by
  simp [classifyStep, hw, hr]

theorem classify_fold_char (isWin : Bool) (cw : Option (List Char)) (ak nrp : List Char) :
    ∀ (lines : List (List Char)) (ws rt : List Item) (act : Option Item),
      (lines.foldl (classifyStep isWin cw ak nrp) (ws, rt, act)).1
        = ws ++ lines.filterMap (fun l =>
            if wsTestB cw (normalize isWin l) then some (mkItem isWin cw ak l)
            else none)
      ∧ (lines.foldl (classifyStep isWin cw ak nrp) (ws, rt, act)).2.1
        = rt ++ lines.filterMap (fun l =>
            if wsTestB cw (normalize isWin l) then none
            else if rpTestB nrp (normalize isWin l) then some (mkItem isWin cw ak l)
            else none) := by
  intro lines
  induction lines with
  | nil => intro ws rt act; simp
  | cons l ls ih =>
    intro ws rt act
    simp only [List.foldl_cons, List.filterMap_cons]
    by_cases hw : wsTestB cw (normalize isWin l) = true
    · rw [classifyStep_ws isWin cw ak nrp (ws, rt, act) l hw]
      obtain ⟨h1, h2⟩ := ih (ws ++ [mkItem isWin cw ak l]) rt
        (if ak == normalize isWin l then some (mkItem isWin cw ak l) else act)
      rw [h1, h2]
      simp [hw, List.append_assoc]
    · by_cases hr : rpTestB nrp (normalize isWin l) = true
      · rw [classifyStep_rt isWin cw ak nrp (ws, rt, act) l
          (Bool.eq_false_iff.mpr hw) hr]
        obtain ⟨h1, h2⟩ := ih ws (rt ++ [mkItem isWin cw ak l])
          (if ak == normalize isWin l then some (mkItem isWin cw ak l) else act)
        rw [h1, h2]
        simp [hw, hr, List.append_assoc]
      · rw [classifyStep_drop isWin cw ak nrp (ws, rt, act) l
          (Bool.eq_false_iff.mpr hw) (Bool.eq_false_iff.mpr hr)]
        obtain ⟨h1, h2⟩ := ih ws rt
          (if ak == normalize isWin l then some (mkItem isWin cw ak l) else act)
        rw [h1, h2]
        simp [hw, hr]

theorem buildLists_ws (isWin : Bool) (wsOpt : Option (List Char))
    (rootPfx : List Char) (stored : Option (List Char))
    (lines : List (List Char)) :
    (buildLists isWin wsOpt rootPfx stored lines).1
      = lines.filterMap (fun l =>
          if wsTestB (wsOpt.map (normalize isWin)) (normalize isWin l) then
            some (mkItem isWin (wsOpt.map (normalize isWin))
              (activeKey isWin stored) l)
          else none) := by
  unfold buildLists
  have := (classify_fold_char isWin (wsOpt.map (normalize isWin))
    (activeKey isWin stored)
    (if rootPfx = [] then [] else normalize isWin rootPfx) lines [] [] none).1
  simpa using this

theorem buildLists_rt (isWin : Bool) (wsOpt : Option (List Char))
    (rootPfx : List Char) (stored : Option (List Char))
    (lines : List (List Char)) :
    (buildLists isWin wsOpt rootPfx stored lines).2.1
      = lines.filterMap (fun l =>
          if wsTestB (wsOpt.map (normalize isWin)) (normalize isWin l) then none
          else if rpTestB (if rootPfx = [] then [] else normalize isWin rootPfx)
              (normalize isWin l) then
            some (mkItem isWin (wsOpt.map (normalize isWin))
              (activeKey isWin stored) l)
          else none) := by
  unfold buildLists
  have := (classify_fold_char isWin (wsOpt.map (normalize isWin))
    (activeKey isWin stored)
    (if rootPfx = [] then [] else normalize isWin rootPfx) lines [] [] none).2
  simpa using this

theorem mem_ws_paths (isWin : Bool) (wsOpt : Option (List Char))
    (rootPfx : List Char) (stored : Option (List Char))
    (lines : List (List Char)) (q : List Char) :
    q ∈ ((buildLists isWin wsOpt rootPfx stored lines).1.map Item.envPath) ↔
      ∃ l ∈ lines, normalize isWin l = q
        ∧ wsTestB (wsOpt.map (normalize isWin)) q = true := by
  rw [buildLists_ws]
  constructor
  · intro h
    rcases List.mem_map.mp h with ⟨it, hit, hq⟩
    rcases List.mem_filterMap.mp hit with ⟨l, hl, hfl⟩
    by_cases hw : wsTestB (wsOpt.map (normalize isWin)) (normalize isWin l) = true
    · rw [if_pos hw] at hfl
      have hit' : mkItem isWin (wsOpt.map (normalize isWin))
          (activeKey isWin stored) l = it := Option.some.inj hfl
      refine ⟨l, hl, ?_, ?_⟩
      · rw [← hq, ← hit', mkItem_envPath]
      · rw [← hq, ← hit', mkItem_envPath]
        exact hw
    · rw [if_neg hw] at hfl
      simp at hfl
  · rintro ⟨l, hl, hnorm, hw⟩
    refine List.mem_map.mpr
      ⟨mkItem isWin (wsOpt.map (normalize isWin)) (activeKey isWin stored) l,
       ?_, ?_⟩
    · exact List.mem_filterMap.mpr ⟨l, hl, by rw [if_pos (by rw [hnorm]; exact hw)]⟩
    · rw [mkItem_envPath, hnorm]

theorem mem_rt_paths (isWin : Bool) (wsOpt : Option (List Char))
    (rootPfx : List Char) (stored : Option (List Char))
    (lines : List (List Char)) (q : List Char) :
    q ∈ ((buildLists isWin wsOpt rootPfx stored lines).2.1.map Item.envPath) ↔
      ∃ l ∈ lines, normalize isWin l = q
        ∧ wsTestB (wsOpt.map (normalize isWin)) q = false
        ∧ rpTestB (if rootPfx = [] then [] else normalize isWin rootPfx) q = true := by
  rw [buildLists_rt]
  constructor
  · intro h
    rcases List.mem_map.mp h with ⟨it, hit, hq⟩
    rcases List.mem_filterMap.mp hit with ⟨l, hl, hfl⟩
    by_cases hw : wsTestB (wsOpt.map (normalize isWin)) (normalize isWin l) = true
    · rw [if_pos hw] at hfl
      simp at hfl
    · rw [if_neg hw] at hfl
      by_cases hr : rpTestB (if rootPfx = [] then [] else normalize isWin rootPfx)
          (normalize isWin l) = true
      · rw [if_pos hr] at hfl
        have hit' : mkItem isWin (wsOpt.map (normalize isWin))
            (activeKey isWin stored) l = it := Option.some.inj hfl
        refine ⟨l, hl, ?_, ?_, ?_⟩
        · rw [← hq, ← hit', mkItem_envPath]
        · rw [← hq, ← hit', mkItem_envPath]
          exact Bool.eq_false_iff.mpr hw
        · rw [← hq, ← hit', mkItem_envPath]
          exact hr
      · rw [if_neg hr] at hfl
        simp at hfl
  · rintro ⟨l, hl, hnorm, hw, hr⟩
    refine List.mem_map.mpr
      ⟨mkItem isWin (wsOpt.map (normalize isWin)) (activeKey isWin stored) l,
       ?_, ?_⟩
    · refine List.mem_filterMap.mpr ⟨l, hl, ?_⟩
      rw [if_neg (by rw [hnorm, hw]; exact Bool.false_ne_true),
        if_pos (by rw [hnorm]; exact hr)]
    · rw [mkItem_envPath, hnorm]

theorem beq_comm_list (a b : List Char) : (a == b) = (b == a) := by
  by_cases h : a = b
  · subst h; rfl
  · rw [beq_eq_false_iff_ne.mpr h, beq_eq_false_iff_ne.mpr (Ne.symm h)]

theorem marked_count_le (isWin : Bool) (cw : Option (List Char)) (ak nrp : List Char) :
    ∀ lines : List (List Char),
      ((lines.filterMap (fun l =>
          if wsTestB cw (normalize isWin l) then some (mkItem isWin cw ak l)
          else none)).filter markedActive).length
        + ((lines.filterMap (fun l =>
            if wsTestB cw (normalize isWin l) then none
            else if rpTestB nrp (normalize isWin l) then some (mkItem isWin cw ak l)
            else none)).filter markedActive).length
      ≤ ((lines.map (normalize isWin)).filter (fun q => q == ak)).length := by
  intro lines
  induction lines with
  | nil => simp
  | cons l ls ih =>
    simp only [List.filterMap_cons, List.map_cons]
    by_cases hw : wsTestB cw (normalize isWin l) = true
    · simp only [hw, if_true]
      rw [List.filter_cons, List.filter_cons]
      rw [markedActive_mkItem]
      by_cases hb : (ak == normalize isWin l) = true
      · have hb' : (normalize isWin l == ak) = true := by
          rw [beq_comm_list]; exact hb
        simp only [hb, hb', if_true, List.length_cons]
        omega
      · have hb2 : (ak == normalize isWin l) = false := Bool.eq_false_iff.mpr hb
        have hb' : (normalize isWin l == ak) = false := by
          rw [beq_comm_list]; exact hb2
        simp only [hb2, hb', Bool.false_eq_true, if_false]
        exact ih
    · have hw' : wsTestB cw (normalize isWin l) = false := Bool.eq_false_iff.mpr hw
      simp only [hw', Bool.false_eq_true, if_false]
      by_cases hr : rpTestB nrp (normalize isWin l) = true
      · simp only [hr, if_true]
        rw [List.filter_cons, List.filter_cons]
        rw [markedActive_mkItem]
        by_cases hb : (ak == normalize isWin l) = true
        · have hb' : (normalize isWin l == ak) = true := by
            rw [beq_comm_list]; exact hb
          simp only [hb, hb', if_true, List.length_cons]
          omega
        · have hb2 : (ak == normalize isWin l) = false := Bool.eq_false_iff.mpr hb
          have hb' : (normalize isWin l == ak) = false := by
            rw [beq_comm_list]; exact hb2
          simp only [hb2, hb', Bool.false_eq_true, if_false]
          exact ih
      · have hr' : rpTestB nrp (normalize isWin l) = false := Bool.eq_false_iff.mpr hr
        simp only [hr', Bool.false_eq_true, if_false]
        rw [List.filter_cons]
        by_cases hb' : (normalize isWin l == ak) = true
        · simp only [hb', if_true, List.length_cons]
          omega
        · have hb2 : (normalize isWin l == ak) = false := Bool.eq_false_iff.mpr hb'
          simp only [hb2, Bool.false_eq_true, if_false]
          exact ih

theorem nodup_filter_beq_le_one :
    ∀ (L : List (List Char)), L.Nodup → ∀ ak : List Char,
      (L.filter (fun q => q == ak)).length ≤ 1 := by
  intro L
  induction L with
  | nil => intro _ ak; simp
  | cons x L ih =>
    intro hnd ak
    rcases List.nodup_cons.mp hnd with ⟨hx, hnd'⟩
    rw [List.filter_cons]
    by_cases hb : (x == ak) = true
    · simp only [hb, if_true, List.length_cons]
      have hnil : L.filter (fun q => q == ak) = [] := by
        refine List.filter_eq_nil_iff.mpr ?_
        intro y hy hpy
        have h1 : y = ak := eq_of_beq hpy
        have h2 : x = ak := eq_of_beq hb
        have : y = x := h1.trans h2.symm
        exact hx (this ▸ hy)
      rw [hnil]
      simp
    · have hb' := Bool.eq_false_iff.mpr hb
      simp only [hb', Bool.false_eq_true, if_false]
      exact ih hnd' ak

theorem exists_mkItem_of_mem (isWin : Bool) (wsOpt : Option (List Char))
    (rootPfx : List Char) (stored : Option (List Char))
    (lines : List (List Char)) (it : Item)
    (hit : it ∈ (buildLists isWin wsOpt rootPfx stored lines).1
        ++ (buildLists isWin wsOpt rootPfx stored lines).2.1) :
    ∃ l ∈ lines, it = mkItem isWin (wsOpt.map (normalize isWin))
        (activeKey isWin stored) l := by
  rcases List.mem_append.mp hit with h | h
  · rw [buildLists_ws] at h
    rcases List.mem_filterMap.mp h with ⟨l, hl, hfl⟩
    by_cases hw : wsTestB (wsOpt.map (normalize isWin)) (normalize isWin l) = true
    · rw [if_pos hw] at hfl
      exact ⟨l, hl, (Option.some.inj hfl).symm⟩
    · rw [if_neg hw] at hfl
      simp at hfl
  · rw [buildLists_rt] at h
    rcases List.mem_filterMap.mp h with ⟨l, hl, hfl⟩
    by_cases hw : wsTestB (wsOpt.map (normalize isWin)) (normalize isWin l) = true
    · rw [if_pos hw] at hfl
      simp at hfl
    · rw [if_neg hw] at hfl
      by_cases hr : rpTestB (if rootPfx = [] then [] else normalize isWin rootPfx)
          (normalize isWin l) = true
      · rw [if_pos hr] at hfl
        exact ⟨l, hl, (Option.some.inj hfl).symm⟩
      · rw [if_neg hr] at hfl
        simp at hfl

theorem rstep_skip (allow : Bool) (stack : List (List Char)) (c : List Char)
    (h : c = [] ∨ c = ['.']) : rstep allow stack c = stack := by
  unfold rstep
  rcases h with h | h <;> subst h <;> simp

theorem rstep_push (allow : Bool) (stack : List (List Char)) (c : List Char)
    (h1 : c ≠ []) (h2 : c ≠ ['.']) (h3 : c ≠ ['.', '.']) :
    rstep allow stack c = c :: stack := by
  unfold rstep
  rw [if_neg (by simp [h1, h2]), if_neg h3]

theorem rstep_dots_pop (allow : Bool) (top : List Char)
    (rest : List (List Char)) (h : top ≠ ['.', '.']) :
    rstep allow (top :: rest) ['.', '.'] = rest := by
  unfold rstep
  rw [if_neg (by simp), if_pos rfl]
  simp [h]

theorem rstep_dots_push (top : List Char) (rest : List (List Char))
    (h : top = ['.', '.']) :
    rstep true (top :: rest) ['.', '.'] = ['.', '.'] :: top :: rest := by
  unfold rstep
  rw [if_neg (by simp), if_pos rfl]
  simp [h]

theorem rstep_dots_keep (top : List Char) (rest : List (List Char))
    (h : top = ['.', '.']) :
    rstep false (top :: rest) ['.', '.'] = top :: rest := by
  unfold rstep
  rw [if_neg (by simp), if_pos rfl]
  simp [h]

theorem rstep_dots_nil (allow : Bool) :
    rstep allow [] ['.', '.'] = if allow then [['.', '.']] else [] := by
  unfold rstep
  rw [if_neg (by simp), if_pos rfl]

theorem goodComp_dots (sep : Char → Bool) (hdot : sep '.' = false) :
    goodComp sep ['.', '.'] := by
  refine ⟨by simp, by simp, ?_⟩
  intro ch hch
  simp only [List.mem_cons, List.not_mem_nil, or_false] at hch
  rcases hch with h | h <;> (subst h; exact hdot)

theorem rstep_invariant (sep : Char → Bool) (allow : Bool)
    (hdot : sep '.' = false) (stack : List (List Char)) (c : List Char)
    (hs1 : ∀ comp ∈ stack, goodComp sep comp)
    (hs2 : ∃ A B, stack = A ++ B ∧ ['.', '.'] ∉ A ∧ ∀ b ∈ B, b = ['.', '.'])
    (hs3 : allow = false → ['.', '.'] ∉ stack)
    (hc : ∀ ch ∈ c, sep ch = false) :
    (∀ comp ∈ rstep allow stack c, goodComp sep comp)
    ∧ (∃ A B, rstep allow stack c = A ++ B ∧ ['.', '.'] ∉ A ∧ ∀ b ∈ B, b = ['.', '.'])
    ∧ (allow = false → ['.', '.'] ∉ rstep allow stack c) := by
  by_cases hskip : c = [] ∨ c = ['.']
  · rw [rstep_skip allow stack c hskip]
    exact ⟨hs1, hs2, hs3⟩
  · push_neg at hskip
    by_cases hdd : c = ['.', '.']
    · subst hdd
      obtain ⟨A, B, hAB, hA, hB⟩ := hs2
      cases stack with
      | nil =>
        rw [rstep_dots_nil]
        cases allow
        · simp only [Bool.false_eq_true, if_false]
          exact ⟨by simp, ⟨[], [], rfl, by simp, by simp⟩, fun _ => by simp⟩
        · simp only [if_true]
          refine ⟨?_, ⟨[], [['.', '.']], rfl, by simp, by simp⟩, by simp⟩
          intro comp hcomp
          rw [List.mem_singleton] at hcomp
          subst hcomp
          exact goodComp_dots sep hdot
      | cons top rest =>
        by_cases htop : top = ['.', '.']
        · subst htop
          have hAnil : A = [] := by
            cases A with
            | nil => rfl
            | cons a A' =>
              exfalso
              rw [List.cons_append] at hAB
              injection hAB with h1 _
              exact hA (by rw [← h1]; exact List.mem_cons_self _ _)
          subst hAnil
          rw [List.nil_append] at hAB
          cases allow
          · rw [rstep_dots_keep _ _ rfl]
            exact ⟨hs1, ⟨[], B, hAB, by simp, hB⟩, hs3⟩
          · rw [rstep_dots_push _ _ rfl]
            refine ⟨?_, ⟨[], ['.', '.'] :: B, by rw [← hAB]; rfl, by simp, ?_⟩, by simp⟩
            · intro comp hcomp
              rcases List.mem_cons.mp hcomp with h | h
              · subst h; exact goodComp_dots sep hdot
              · exact hs1 comp h
            · intro b hb
              rcases List.mem_cons.mp hb with h | h
              · exact h
              · exact hB b h
        · rw [rstep_dots_pop allow top rest htop]
          have hAcons : ∃ A', A = top :: A' ∧ rest = A' ++ B := by
            cases A with
            | nil =>
              exfalso
              rw [List.nil_append] at hAB
              have : top ∈ B := by rw [← hAB]; exact List.mem_cons_self _ _
              exact htop (hB top this)
            | cons a A' =>
              rw [List.cons_append] at hAB
              injection hAB with h1 h2
              exact ⟨A', by rw [h1], h2⟩
          obtain ⟨A', hA', hrest⟩ := hAcons
          refine ⟨?_, ⟨A', B, hrest, ?_, hB⟩, ?_⟩
          · intro comp hcomp
            exact hs1 comp (List.mem_cons_of_mem top hcomp)
          · intro hmem
            exact hA (by rw [hA']; exact List.mem_cons_of_mem top hmem)
          · intro hfalse hmem
            exact hs3 hfalse (List.mem_cons_of_mem top hmem)
    · rw [rstep_push allow stack c hskip.1 hskip.2 hdd]
      obtain ⟨A, B, hAB, hA, hB⟩ := hs2
      refine ⟨?_, ⟨c :: A, B, by rw [hAB, List.cons_append], ?_, hB⟩, ?_⟩
      · intro comp hcomp
        rcases List.mem_cons.mp hcomp with h | h
        · subst h
          exact ⟨hskip.1, hskip.2, hc⟩
        · exact hs1 comp h
      · intro hmem
        rcases List.mem_cons.mp hmem with h | h
        · exact hdd h.symm
        · exact hA h
      · intro hfalse hmem
        rcases List.mem_cons.mp hmem with h | h
        · exact hdd h.symm
        · exact hs3 hfalse h

theorem foldl_rstep_invariant (sep : Char → Bool) (allow : Bool)
    (hdot : sep '.' = false) :
    ∀ (cs : List (List Char)) (stack : List (List Char)),
      (∀ comp ∈ cs, ∀ ch ∈ comp, sep ch = false) →
      (∀ comp ∈ stack, goodComp sep comp) →
      (∃ A B, stack = A ++ B ∧ ['.', '.'] ∉ A ∧ ∀ b ∈ B, b = ['.', '.']) →
      (allow = false → ['.', '.'] ∉ stack) →
      ((∀ comp ∈ cs.foldl (rstep allow) stack, goodComp sep comp)
        ∧ (∃ A B, cs.foldl (rstep allow) stack = A ++ B
            ∧ ['.', '.'] ∉ A ∧ ∀ b ∈ B, b = ['.', '.'])
        ∧ (allow = false → ['.', '.'] ∉ cs.foldl (rstep allow) stack)) := by
  intro cs
  induction cs with
  | nil => intro stack _ h1 h2 h3; exact ⟨h1, h2, h3⟩
  | cons c cs ih =>
    intro stack hcs h1 h2 h3
    simp only [List.foldl_cons]
    obtain ⟨g1, g2, g3⟩ := rstep_invariant sep allow hdot stack c h1 h2 h3
      (hcs c (List.mem_cons_self c cs))
    exact ih (rstep allow stack c)
      (fun comp hcomp => hcs comp (List.mem_cons_of_mem c hcomp)) g1 g2 g3

theorem resolve_good (sep : Char → Bool) (allow : Bool)
    (hdot : sep '.' = false) (cs : List (List Char))
    (hcs : ∀ comp ∈ cs, ∀ ch ∈ comp, sep ch = false) :
    (∀ comp ∈ resolve allow cs, goodComp sep comp)
    ∧ (∃ D E, resolve allow cs = D ++ E
        ∧ (∀ d ∈ D, d = ['.', '.']) ∧ ['.', '.'] ∉ E)
    ∧ (allow = false → ['.', '.'] ∉ resolve allow cs) := by
  obtain ⟨g1, ⟨A, B, hAB, hA, hB⟩, g3⟩ :=
    foldl_rstep_invariant sep allow hdot cs []
      hcs (by simp) ⟨[], [], rfl, by simp, by simp⟩ (by simp)
  unfold resolve
  refine ⟨?_, ⟨B.reverse, A.reverse, ?_, ?_, ?_⟩, ?_⟩
  · intro comp hcomp
    exact g1 comp (List.mem_reverse.mp hcomp)
  · rw [hAB, List.reverse_append]
  · intro d hd
    exact hB d (List.mem_reverse.mp hd)
  · intro hmem
    exact hA (List.mem_reverse.mp hmem)
  · intro hfalse hmem
    exact g3 hfalse (List.mem_reverse.mp hmem)

theorem foldl_rstep_push_all (allow : Bool) :
    ∀ (A : List (List Char)) (stack : List (List Char)),
      (∀ a ∈ A, a ≠ [] ∧ a ≠ ['.'] ∧ a ≠ ['.', '.']) →
      A.foldl (rstep allow) stack = A.reverse ++ stack := by
  intro A
  induction A with
  | nil => intro stack _; rfl
  | cons a A ih =>
    intro stack hA
    obtain ⟨h1, h2, h3⟩ := hA a (List.mem_cons_self a A)
    simp only [List.foldl_cons]
    rw [rstep_push allow stack a h1 h2 h3,
      ih (a :: stack) (fun x hx => hA x (List.mem_cons_of_mem a hx))]
    simp

theorem foldl_rstep_all_dots :
    ∀ (B : List (List Char)) (stack : List (List Char)),
      (∀ b ∈ B, b = ['.', '.']) → (∀ s ∈ stack, s = ['.', '.']) →
      B.foldl (rstep true) stack = B.reverse ++ stack := by
  intro B
  induction B with
  | nil => intro stack _ _; rfl
  | cons b B ih =>
    intro stack hB hstack
    have hb : b = ['.', '.'] := hB b (List.mem_cons_self b B)
    subst hb
    simp only [List.foldl_cons]
    have hstep : rstep true stack ['.', '.'] = ['.', '.'] :: stack := by
      cases stack with
      | nil => rw [rstep_dots_nil]; rfl
      | cons top rest =>
        exact rstep_dots_push top rest (hstack top (List.mem_cons_self top rest))
    rw [hstep, ih (['.', '.'] :: stack)
      (fun x hx => hB x (List.mem_cons_of_mem _ hx))
      (fun s hs => by rcases List.mem_cons.mp hs with h | h
                      · exact h
                      · exact hstack s h)]
    simp

theorem resolve_fixed (allow : Bool) (D E : List (List Char))
    (hD : ∀ d ∈ D, d = ['.', '.']) (hE : ∀ e ∈ E, e ≠ [] ∧ e ≠ ['.'] ∧ e ≠ ['.', '.'])
    (hallow : allow = false → D = []) :
    resolve allow (D ++ E) = D ++ E := by
  cases allow
  · rw [hallow rfl, List.nil_append]
    unfold resolve
    rw [foldl_rstep_push_all false E [] hE]
    simp
  · unfold resolve
    rw [List.foldl_append, foldl_rstep_all_dots D [] hD (by simp),
      List.append_nil, foldl_rstep_push_all true E D.reverse hE]
    simp

theorem splitOnC_comps_noSep (sep : Char → Bool) :
    ∀ (l : List Char) (comp : List Char), comp ∈ splitOnC sep l →
      ∀ c ∈ comp, sep c = false := by
  intro l
  induction l with
  | nil =>
    intro comp hcomp c hc
    simp only [splitOnC, List.mem_singleton] at hcomp
    subst hcomp
    simp at hc
  | cons x xs ih =>
    intro comp hcomp c hc
    by_cases hx : sep x = true
    · rw [splitOnC_sepHead sep x xs hx] at hcomp
      rcases List.mem_cons.mp hcomp with h | h
      · subst h; simp at hc
      · exact ih comp h c hc
    · have hx' : sep x = false := Bool.eq_false_iff.mpr hx
      cases hsp : splitOnC sep xs with
      | nil => exact absurd hsp (splitOnC_ne_nil sep xs)
      | cons t ts =>
        have : splitOnC sep (x :: xs) = (x :: t) :: ts := by
          conv_lhs => rw [splitOnC]
          rw [hx']
          simp only [Bool.false_eq_true, if_false, hsp]
        rw [this] at hcomp
        rcases List.mem_cons.mp hcomp with h | h
        · subst h
          rcases List.mem_cons.mp hc with h' | h'
          · subst h'; exact hx'
          · exact ih t (by rw [hsp]; exact List.mem_cons_self t ts) c h'
        · exact ih comp (by rw [hsp]; exact List.mem_cons_of_mem t h) c hc

theorem mem_of_getLastQ : ∀ (l : List Char) (c : Char),
    l.getLast? = some c → c ∈ l := by
  intro l c h
  rw [← List.head?_reverse] at h
  have hm : c ∈ l.reverse := by
    cases hr : l.reverse with
    | nil => rw [hr] at h; simp at h
    | cons a t =>
      rw [hr] at h
      simp only [List.head?_cons, Option.some.injEq] at h
      subst h
      exact List.mem_cons_self _ _
  exact List.mem_reverse.mp hm

theorem splitOnC_all_noSep (sep : Char → Bool) (l : List Char)
    (h : ∀ c ∈ l, sep c = false) : splitOnC sep l = [l] := by
  have := splitOnC_noSep_append sep l [] [] [] h rfl
  simpa using this

theorem joinWith_ne_nil (j : Char) :
    ∀ (C : List (List Char)), C ≠ [] → (∀ comp ∈ C, comp ≠ []) →
      joinWith j C ≠ [] := by
  intro C
  induction C with
  | nil => intro h _; exact absurd rfl h
  | cons c C ih =>
    intro _ hcomps
    cases C with
    | nil =>
      show c ≠ []
      exact hcomps c (List.mem_cons_self c [])
    | cons c2 C2 =>
      show c ++ j :: joinWith j (c2 :: C2) ≠ []
      simp

theorem splitOnC_join (sep : Char → Bool) (j : Char) (hj : sep j = true) :
    ∀ (C : List (List Char)), C ≠ [] →
      (∀ comp ∈ C, ∀ ch ∈ comp, sep ch = false) →
      splitOnC sep (joinWith j C) = C := by
  intro C
  induction C with
  | nil => intro h _; exact absurd rfl h
  | cons c C ih =>
    intro _ hcomps
    cases C with
    | nil =>
      show splitOnC sep (joinWith j [c]) = [c]
      exact splitOnC_all_noSep sep c (hcomps c (List.mem_cons_self c []))
    | cons c2 C2 =>
      show splitOnC sep (c ++ j :: joinWith j (c2 :: C2)) = c :: c2 :: C2
      have hrec : splitOnC sep (j :: joinWith j (c2 :: C2))
          = [] :: splitOnC sep (joinWith j (c2 :: C2)) :=
        splitOnC_sepHead sep j _ hj
      rw [ih (by simp) (fun x hx => hcomps x (List.mem_cons_of_mem c hx))] at hrec
      have := splitOnC_noSep_append sep c (j :: joinWith j (c2 :: C2))
        [] (c2 :: C2) (hcomps c (List.mem_cons_self c _)) hrec
      simpa using this

theorem splitOnC_append_sep (sep : Char → Bool) (j : Char) (hj : sep j = true) :
    ∀ (l : List Char), splitOnC sep (l ++ [j]) = splitOnC sep l ++ [[]] := by
  intro l
  induction l with
  | nil =>
    show splitOnC sep [j] = splitOnC sep [] ++ [[]]
    rw [splitOnC_sepHead sep j [] hj]
    rfl
  | cons x xs ih =>
    by_cases hx : sep x = true
    · show splitOnC sep (x :: (xs ++ [j])) = splitOnC sep (x :: xs) ++ [[]]
      rw [splitOnC_sepHead sep x _ hx, splitOnC_sepHead sep x _ hx, ih]
      rfl
    · have hx' : sep x = false := Bool.eq_false_iff.mpr hx
      show splitOnC sep (x :: (xs ++ [j])) = splitOnC sep (x :: xs) ++ [[]]
      cases hsp : splitOnC sep xs with
      | nil => exact absurd hsp (splitOnC_ne_nil sep xs)
      | cons t ts =>
        have h1 : splitOnC sep (xs ++ [j]) = t :: (ts ++ [[]]) := by
          rw [ih, hsp]
          rfl
        have h2 : splitOnC sep (x :: (xs ++ [j])) = (x :: t) :: (ts ++ [[]]) := by
          conv_lhs => rw [splitOnC]
          rw [hx']
          simp only [Bool.false_eq_true, if_false, h1]
        have h3 : splitOnC sep (x :: xs) = (x :: t) :: ts := by
          conv_lhs => rw [splitOnC]
          rw [hx']
          simp only [Bool.false_eq_true, if_false, hsp]
        rw [h2, h3]
        rfl

theorem joinWith_head_noSep (sep : Char → Bool) (j : Char)
    (C : List (List Char)) (hC : C ≠ [])
    (hcomps : ∀ comp ∈ C, comp ≠ [] ∧ ∀ ch ∈ comp, sep ch = false) :
    ∀ ch, (joinWith j C).head? = some ch → sep ch = false := by
  intro ch h
  cases C with
  | nil => exact absurd rfl hC
  | cons c C2 =>
    obtain ⟨hne, hfree⟩ := hcomps c (List.mem_cons_self c C2)
    cases c with
    | nil => exact absurd rfl hne
    | cons a rest =>
      have hhead : (joinWith j ((a :: rest) :: C2)).head? = some a := by
        cases C2 with
        | nil => rfl
        | cons c2 C3 => rfl
      rw [hhead] at h
      injection h with h
      subst h
      exact hfree _ (List.mem_cons_self _ _)

theorem joinWith_getLast_noSep (sep : Char → Bool) (j : Char) :
    ∀ (C : List (List Char)), C ≠ [] →
      (∀ comp ∈ C, comp ≠ [] ∧ ∀ ch ∈ comp, sep ch = false) →
      ∀ ch, (joinWith j C).getLast? = some ch → sep ch = false := by
  intro C
  induction C with
  | nil => intro h _; exact absurd rfl h
  | cons c C2 ih =>
    intro _ hcomps ch h
    cases C2 with
    | nil =>
      obtain ⟨hne, hfree⟩ := hcomps c (List.mem_cons_self c [])
      exact hfree ch (mem_of_getLastQ c ch h)
    | cons c2 C3 =>
      have hjoin : joinWith j (c :: c2 :: C3) = c ++ j :: joinWith j (c2 :: C3) := rfl
      rw [hjoin] at h
      have hne2 : joinWith j (c2 :: C3) ≠ [] :=
        joinWith_ne_nil j (c2 :: C3) (by simp)
          (fun x hx => (hcomps x (List.mem_cons_of_mem c hx)).1)
      have hlast : (c ++ j :: joinWith j (c2 :: C3)).getLast?
          = (joinWith j (c2 :: C3)).getLast? := by
        rw [List.getLast?_append_of_ne_nil c (by simp)]
        exact List.getLast?_append_of_ne_nil [j] hne2
      rw [hlast] at h
      exact ih (by simp) (fun x hx => hcomps x (List.mem_cons_of_mem c hx)) ch h

theorem rstep_empty (allow : Bool) (stack : List (List Char)) :
    rstep allow stack [] = stack := rstep_skip allow stack [] (Or.inl rfl)

theorem resolve_cons_empty (allow : Bool) (cs : List (List Char)) :
    resolve allow ([] :: cs) = resolve allow cs := by
  unfold resolve
  simp only [List.foldl_cons, rstep_empty]

theorem resolve_append_empty (allow : Bool) (cs : List (List Char)) :
    resolve allow (cs ++ [[]]) = resolve allow cs := by
  unfold resolve
  rw [List.foldl_append]
  simp only [List.foldl_cons, List.foldl_nil, rstep_empty]

theorem posixAssemble_reparse (isAbs trailing : Bool) (C : List (List Char))
    (hC0 : C ≠ []) (hgoodC : ∀ comp ∈ C, goodComp isPosixSep comp)
    (hfix : resolve (!isAbs) C = C) :
    posixNormalize (posixAssemble isAbs trailing (joinWith '/' C))
      = posixAssemble isAbs trailing (joinWith '/' C) := by
  have hslash : isPosixSep '/' = true := by decide
  have ht0ne : joinWith '/' C ≠ [] :=
    joinWith_ne_nil '/' C hC0 (fun comp hc => (hgoodC comp hc).1)
  obtain ⟨c0, r0, hc0⟩ := List.exists_cons_of_ne_nil ht0ne
  have hcompinfo : ∀ comp ∈ C, comp ≠ [] ∧ ∀ ch ∈ comp, isPosixSep ch = false :=
    fun comp hc => ⟨(hgoodC comp hc).1, (hgoodC comp hc).2.2⟩
  have hhead0 : isPosixSep c0 = false := by
    refine joinWith_head_noSep isPosixSep '/' C hC0 hcompinfo c0 ?_
    rw [hc0]
    rfl
  have hlast0 : ∀ ch, (joinWith '/' C).getLast? = some ch → isPosixSep ch = false :=
    joinWith_getLast_noSep isPosixSep '/' C hC0 hcompinfo
  obtain ⟨cl, hcl⟩ : ∃ cl, (joinWith '/' C).getLast? = some cl := by
    rw [hc0]
    exact ⟨(c0 :: r0).getLast (by simp), List.getLast?_eq_getLast _ _⟩
  have hclns : isPosixSep cl = false := hlast0 cl hcl
  have hsplit0 : splitOnC isPosixSep (joinWith '/' C) = C :=
    splitOnC_join isPosixSep '/' hslash C hC0 (fun comp hc => (hgoodC comp hc).2.2)
  have hassem : posixAssemble isAbs trailing (joinWith '/' C)
      = (if isAbs = true then
          '/' :: (if trailing = true then joinWith '/' C ++ ['/'] else joinWith '/' C)
        else (if trailing = true then joinWith '/' C ++ ['/'] else joinWith '/' C)) := by
    unfold posixAssemble
    rw [if_neg ht0ne]
  rw [hassem]
  cases isAbs with
  | true =>
    cases trailing with
    | true =>
      show posixNormalize ('/' :: (joinWith '/' C ++ ['/']))
        = '/' :: (joinWith '/' C ++ ['/'])
      have hrne : ('/' :: (joinWith '/' C ++ ['/'])) ≠ [] := by simp
      have hlast : ('/' :: (joinWith '/' C ++ ['/'])).getLast? = some '/' := by
        show (['/'] ++ (joinWith '/' C ++ ['/'])).getLast? = some '/'
        rw [List.getLast?_append_of_ne_nil ['/'] (by simp)]
        rw [List.getLast?_append_of_ne_nil (joinWith '/' C) (by simp)]
        rfl
      have hres : resolve false (splitOnC isPosixSep
          ('/' :: (joinWith '/' C ++ ['/']))) = C := by
        rw [splitOnC_sepHead isPosixSep '/' _ hslash,
          splitOnC_append_sep isPosixSep '/' hslash, hsplit0,
          resolve_cons_empty, resolve_append_empty]
        exact hfix
      unfold posixNormalize
      rw [if_neg hrne]
      have hh : isPosixSep ('/' :: (joinWith '/' C ++ ['/'])).headI = true := rfl
      rw [hh]
      have hl : lastIsSep isPosixSep ('/' :: (joinWith '/' C ++ ['/'])) = true := by
        unfold lastIsSep
        rw [hlast]
        rfl
      rw [hl]
      unfold normalizeString
      rw [show (!true) = false from rfl, hres]
      unfold posixAssemble
      rw [if_neg ht0ne]
      rfl
    | false =>
      show posixNormalize ('/' :: joinWith '/' C) = '/' :: joinWith '/' C
      have hrne : ('/' :: joinWith '/' C) ≠ [] := by simp
      have hlast : ('/' :: joinWith '/' C).getLast? = some cl := by
        show (['/'] ++ joinWith '/' C).getLast? = some cl
        rw [List.getLast?_append_of_ne_nil ['/'] ht0ne]
        exact hcl
      have hres : resolve false (splitOnC isPosixSep ('/' :: joinWith '/' C)) = C := by
        rw [splitOnC_sepHead isPosixSep '/' _ hslash, hsplit0, resolve_cons_empty]
        exact hfix
      unfold posixNormalize
      rw [if_neg hrne]
      have hh : isPosixSep ('/' :: joinWith '/' C).headI = true := rfl
      rw [hh]
      have hl : lastIsSep isPosixSep ('/' :: joinWith '/' C) = false := by
        unfold lastIsSep
        rw [hlast]
        show isPosixSep cl = false
        exact hclns
      rw [hl]
      unfold normalizeString
      rw [show (!true) = false from rfl, hres]
      unfold posixAssemble
      rw [if_neg ht0ne]
      rfl
  | false =>
    cases trailing with
    | true =>
      show posixNormalize (joinWith '/' C ++ ['/']) = joinWith '/' C ++ ['/']
      have hrne : (joinWith '/' C ++ ['/']) ≠ [] := by simp
      have hhead : isPosixSep (joinWith '/' C ++ ['/']).headI = false := by
        rw [hc0, List.cons_append]
        exact hhead0
      have hlast : (joinWith '/' C ++ ['/']).getLast? = some '/' := by
        rw [List.getLast?_append_of_ne_nil (joinWith '/' C) (by simp)]
        rfl
      have hres : resolve true (splitOnC isPosixSep (joinWith '/' C ++ ['/'])) = C := by
        rw [splitOnC_append_sep isPosixSep '/' hslash, hsplit0, resolve_append_empty]
        exact hfix
      unfold posixNormalize
      rw [if_neg hrne]
      rw [hhead]
      have hl : lastIsSep isPosixSep (joinWith '/' C ++ ['/']) = true := by
        unfold lastIsSep
        rw [hlast]
        rfl
      rw [hl]
      unfold normalizeString
      rw [show (!false) = true from rfl, hres]
      unfold posixAssemble
      rw [if_neg ht0ne]
      rfl
    | false =>
      show posixNormalize (joinWith '/' C) = joinWith '/' C
      have hrne : joinWith '/' C ≠ [] := ht0ne
      have hhead : isPosixSep (joinWith '/' C).headI = false := by
        rw [hc0]
        exact hhead0
      have hres : resolve true (splitOnC isPosixSep (joinWith '/' C)) = C := by
        rw [hsplit0]
        exact hfix
      unfold posixNormalize
      rw [if_neg hrne]
      rw [hhead]
      have hl : lastIsSep isPosixSep (joinWith '/' C) = false := by
        unfold lastIsSep
        rw [hcl]
        show isPosixSep cl = false
        exact hclns
      rw [hl]
      unfold normalizeString
      rw [show (!false) = true from rfl, hres]
      unfold posixAssemble
      rw [if_neg ht0ne]
      rfl

theorem posixNormalize_idem (p : List Char) :
    posixNormalize (posixNormalize p) = posixNormalize p := by
  by_cases hp : p = []
  · subst hp; decide
  · have hdot : isPosixSep '.' = false := by decide
    have hcomps := splitOnC_comps_noSep isPosixSep p
    obtain ⟨hgood, ⟨D, E, hDE, hD, hE⟩, hnodots⟩ :=
      resolve_good isPosixSep (!isPosixSep p.headI) hdot
        (splitOnC isPosixSep p) hcomps
    have hPn : posixNormalize p
        = posixAssemble (isPosixSep p.headI) (lastIsSep isPosixSep p)
            (joinWith '/' (resolve (!isPosixSep p.headI) (splitOnC isPosixSep p))) := by
      unfold posixNormalize
      rw [if_neg hp]
      rfl
    set C := resolve (!isPosixSep p.headI) (splitOnC isPosixSep p) with hCdef
    by_cases hC0 : C = []
    · rw [hPn, hC0]
      cases hA : isPosixSep p.headI <;> cases hT : lastIsSep isPosixSep p <;> decide
    · have hfix : resolve (!isPosixSep p.headI) C = C := by
        rw [hDE]
        refine resolve_fixed _ D E hD ?_ ?_
        · intro e he
          have heC : e ∈ C := by
            rw [hDE]
            exact List.mem_append_right D he
          exact ⟨(hgood e heC).1, (hgood e heC).2.1, fun hdd => hE (hdd ▸ he)⟩
        · intro hfalse
          cases D with
          | nil => rfl
          | cons d D' =>
            exfalso
            have hd : d = ['.', '.'] := hD d (List.mem_cons_self d D')
            have hmem : ['.', '.'] ∈ C := by
              rw [hDE]
              exact List.mem_append_left E (by rw [← hd]; exact List.mem_cons_self d D')
            exact hnodots hfalse hmem
      rw [hPn]
      exact posixAssemble_reparse (isPosixSep p.headI) (lastIsSep isPosixSep p)
        C hC0 hgood hfix

/-! ## Claim theorems -/

/-- C1: Activation is atomic: if the environment-manager subprocess
invocation in `setEnvironment` fails (non-zero exit or spawn failure,
i.e. the `err` branch of the `cp.exec` callback), then none of the three
effect targets changes from its pre-call value: the terminal variable
collection is not cleared or written, the `.env` file is not written, and
the persisted last-active path is not updated (only the status-bar text
changes). -/
theorem activation_atomic_on_failure (isWin hasWorkspace : Bool)
    (envPath msg : List Char) (s : EffectsState) :
    (setEnvironmentCallback isWin hasWorkspace envPath (Except.error msg) s).varCollection
        = s.varCollection
    ∧ (setEnvironmentCallback isWin hasWorkspace envPath (Except.error msg) s).envFile
        = s.envFile
    ∧ (setEnvironmentCallback isWin hasWorkspace envPath (Except.error msg) s).persisted
        = s.persisted :=
  ⟨rfl, rfl, rfl⟩

/-- C3: `parseEnvOutput` keeps exactly the lines containing at least one
`=` (lines without one — including empty lines — are silently dropped by a
total function, never an error), and each kept line is split at its first
`=` into a name (the part before it) and a value (everything after it, so
values may themselves contain `=`), both trimmed as they are assigned.
On `FOO=bar\nBAZ=1=2\nmalformed_line\n` the result is exactly
`{FOO: "bar", BAZ: "1=2"}`. -/
theorem parse_keeps_exactly_eq_lines (output : List Char) :
    parseEnvOutput output
      = ((splitRuns output).filter (fun l => l.contains '=')).foldl
          (fun envs line =>
            objSet envs (trim (line.takeWhile (fun c => c ≠ '=')))
              (trim ((line.dropWhile (fun c => c ≠ '=')).drop 1))) []
    ∧ parseEnvOutput (chars "FOO=bar\nBAZ=1=2\nmalformed_line\n")
      = [(chars "FOO", chars "bar"), (chars "BAZ", chars "1=2")] := by
  constructor
  · rw [parseEnvOutput_eq_filter]
    refine foldl_congr_mem _ _ _ _ ?_
    intro b x hx
    simp only [List.mem_filter] at hx
    exact envLineStep_keep b x hx.2
  · decide

/-- C8: `getMambaConfig` is memoized and idempotent: a call with a
populated cache returns the cached configuration unchanged, independent of
the current settings and of the shell (so the shell is not re-invoked even
if settings change in between); the first call populates the cache with
its own result, so a second call returns the same configuration; and when
the `micromambaBinary` setting is empty and shell discovery fails or
yields an empty executable, the resulting executable path is the literal
default `"micromamba"`. -/
theorem config_memoized_and_default_exe (settings settings' : Settings)
    (homedir homedir' : List Char) (shell shell' : Except Unit ShellVars)
    (c : MambaConfig) :
    getMambaConfig settings' homedir' shell' (some c) = (c, some c)
    ∧ (getMambaConfig settings homedir shell none).2
        = some (getMambaConfig settings homedir shell none).1
    ∧ getMambaConfig settings' homedir' shell'
          (getMambaConfig settings homedir shell none).2
        = ((getMambaConfig settings homedir shell none).1,
           (getMambaConfig settings homedir shell none).2)
    ∧ (settings.micromambaBinary = [] →
        (shell = Except.error () ∨ ∃ v, shell = Except.ok v ∧ v.exe = []) →
        (getMambaConfig settings homedir shell none).1.exe = chars "micromamba") := by
  refine ⟨rfl, rfl, rfl, ?_⟩
  intro hbin hsh
  rcases hsh with hsh | ⟨v, hsh, hv⟩
  · subst hsh
    simp [getMambaConfig, hbin]
  · subst hsh
    simp [getMambaConfig, hbin, hv]

/-- C10: `parseEnvOutput` trims leading and trailing whitespace from both
the name and the value of every kept line (every pair of the result is a
fixed point of `trim`, so a value with surrounding spaces is not preserved
verbatim — concretely `A=  b  ` parses to `("A", "b")`), and when the same
name occurs on multiple lines the value of the last occurrence wins (the
lookup of any key equals a last-assignment fold over the kept lines, and
concretely `A=1\nA=2` parses to `("A", "2")`), so the keys of the result
are unique. -/
theorem parse_trims_and_last_wins (output : List Char) :
    ((parseEnvOutput output).all
        (fun p => trim p.1 == p.1 && trim p.2 == p.2)) = true
    ∧ ((parseEnvOutput output).map Prod.fst).Nodup
    ∧ (∀ k, objGet (parseEnvOutput output) k
        = ((splitRuns output).filter (fun l => l.contains '=')).foldl
            (fun acc line =>
              if trim (line.takeWhile (fun c => c ≠ '=')) = k then
                some (trim ((line.dropWhile (fun c => c ≠ '=')).drop 1))
              else acc)
            none)
    ∧ parseEnvOutput (chars "A=  b  ") = [(chars "A", chars "b")]
    ∧ parseEnvOutput (chars "A=1\nA=2") = [(chars "A", chars "2")] := by
  refine ⟨?_, ?_, ?_, by decide, by decide⟩
  · rw [List.all_eq_true]
    intro p hp
    obtain ⟨h1, h2⟩ :=
      foldl_envLineStep_pairs (splitRuns output) [] (by simp) p hp
    simp [h1, h2]
  · exact foldl_envLineStep_nodup (splitRuns output) [] (by simp)
  · intro k
    rw [parseEnvOutput_eq_filter]
    exact objGet_foldl_envLineStep _ [] k
      (fun l hl => (List.mem_filter.mp hl).2)

/-- C4, counterexample to the claim as stated: a parsed mapping that
contains both `CONDA_DEFAULT_ENV` and `CONDA_PREFIX` as keys — the former
with the empty value, as produced by a `CONDA_DEFAULT_ENV=` line — is not
returned unchanged: the JS falsiness test `!envVars['CONDA_DEFAULT_ENV']`
treats the empty value as missing and overwrites it. -/
theorem defaulting_overwrites_empty_value :
    (objGet [(chars "CONDA_DEFAULT_ENV", []), (chars "CONDA_PREFIX", chars "/x")]
        (chars "CONDA_DEFAULT_ENV")).isSome = true
    ∧ (objGet [(chars "CONDA_DEFAULT_ENV", []), (chars "CONDA_PREFIX", chars "/x")]
        (chars "CONDA_PREFIX")).isSome = true
    ∧ applyDefaults false (chars "/opt/a")
        [(chars "CONDA_DEFAULT_ENV", []), (chars "CONDA_PREFIX", chars "/x")]
      ≠ [(chars "CONDA_DEFAULT_ENV", []), (chars "CONDA_PREFIX", chars "/x")] := by
  refine ⟨by decide, by decide, by decide⟩

theorem falsyAt_false_isSome (m : List (List Char × List Char))
    (k : List Char) (h : falsyAt m k = false) : (objGet m k).isSome = true := by
  unfold falsyAt at h
  cases hg : objGet m k with
  | none => rw [hg] at h; simp at h
  | some v => simp

theorem falsyAt_objSet_ne (m : List (List Char × List Char))
    (k v k' : List Char) (h : k' ≠ k) :
    falsyAt (objSet m k v) k' = falsyAt m k' := by
  unfold falsyAt
  rw [objGet_objSet, if_neg h]

/-- C4, amended: during activation, if the parsed mapping lacks the key
`CONDA_DEFAULT_ENV` *or maps it to the empty string* (JS falsiness), the
result maps it to the basename of the selected path; if it lacks
`CONDA_PREFIX` *or maps it to the empty string*, the result maps it to the
selected path itself; when both keys are present *with non-empty values*
the mapping is returned unchanged; and in every case both keys are present
in the result (never unset). -/
theorem defaulting_amended (isWin : Bool) (envPath : List Char)
    (m : List (List Char × List Char)) :
    (falsyAt m (chars "CONDA_DEFAULT_ENV") = true →
      objGet (applyDefaults isWin envPath m) (chars "CONDA_DEFAULT_ENV")
        = some (basename isWin envPath))
    ∧ (falsyAt m (chars "CONDA_PREFIX") = true →
      objGet (applyDefaults isWin envPath m) (chars "CONDA_PREFIX")
        = some envPath)
    ∧ (falsyAt m (chars "CONDA_DEFAULT_ENV") = false →
       falsyAt m (chars "CONDA_PREFIX") = false →
      applyDefaults isWin envPath m = m)
    ∧ (objGet (applyDefaults isWin envPath m) (chars "CONDA_DEFAULT_ENV")).isSome = true
    ∧ (objGet (applyDefaults isWin envPath m) (chars "CONDA_PREFIX")).isSome = true := by
  have hne : chars "CONDA_PREFIX" ≠ chars "CONDA_DEFAULT_ENV" := by decide
  have hne' : chars "CONDA_DEFAULT_ENV" ≠ chars "CONDA_PREFIX" := by decide
  have hswap : ∀ v, falsyAt (objSet m (chars "CONDA_DEFAULT_ENV") v)
      (chars "CONDA_PREFIX") = falsyAt m (chars "CONDA_PREFIX") :=
    fun v => falsyAt_objSet_ne m _ v _ hne
  refine ⟨?_, ?_, ?_, ?_, ?_⟩
  · intro h1
    unfold applyDefaults applyNameDefault applyPfxDefault
    rw [if_pos h1, hswap]
    by_cases h2 : falsyAt m (chars "CONDA_PREFIX") = true
    · rw [if_pos h2, objGet_objSet, if_neg hne', objGet_objSet, if_pos rfl]
    · rw [if_neg h2, objGet_objSet, if_pos rfl]
  · intro h2
    unfold applyDefaults applyNameDefault applyPfxDefault
    by_cases h1 : falsyAt m (chars "CONDA_DEFAULT_ENV") = true
    · rw [if_pos h1, hswap, if_pos h2, objGet_objSet, if_pos rfl]
    · rw [if_neg h1, if_pos h2, objGet_objSet, if_pos rfl]
  · intro h1 h2
    have hn : applyNameDefault isWin envPath m = m := by
      unfold applyNameDefault
      rw [if_neg (by rw [h1]; exact Bool.false_ne_true)]
    unfold applyDefaults
    rw [hn]
    unfold applyPfxDefault
    rw [if_neg (by rw [h2]; exact Bool.false_ne_true)]
  · unfold applyDefaults applyNameDefault applyPfxDefault
    by_cases h1 : falsyAt m (chars "CONDA_DEFAULT_ENV") = true
    · rw [if_pos h1, hswap]
      by_cases h2 : falsyAt m (chars "CONDA_PREFIX") = true
      · rw [if_pos h2, objGet_objSet, if_neg hne', objGet_objSet, if_pos rfl]
        rfl
      · rw [if_neg h2, objGet_objSet, if_pos rfl]
        rfl
    · rw [if_neg h1]
      by_cases h2 : falsyAt m (chars "CONDA_PREFIX") = true
      · rw [if_pos h2, objGet_objSet, if_neg hne']
        exact falsyAt_false_isSome m _ (Bool.eq_false_iff.mpr h1)
      · rw [if_neg h2]
        exact falsyAt_false_isSome m _ (Bool.eq_false_iff.mpr h1)
  · unfold applyDefaults applyNameDefault applyPfxDefault
    by_cases h1 : falsyAt m (chars "CONDA_DEFAULT_ENV") = true
    · rw [if_pos h1, hswap]
      by_cases h2 : falsyAt m (chars "CONDA_PREFIX") = true
      · rw [if_pos h2, objGet_objSet, if_pos rfl]
        rfl
      · rw [if_neg h2, objGet_objSet, if_neg hne]
        exact falsyAt_false_isSome m _ (Bool.eq_false_iff.mpr h2)
    · rw [if_neg h1]
      by_cases h2 : falsyAt m (chars "CONDA_PREFIX") = true
      · rw [if_pos h2, objGet_objSet, if_pos rfl]
        rfl
      · rw [if_neg h2]
        exact falsyAt_false_isSome m _ (Bool.eq_false_iff.mpr h2)

/-- Witness for C4's amended theorem at a concrete input: a mapping missing
both keys gains them. -/
theorem defaulting_amended_witness :
    objGet (applyDefaults false (chars "/opt/micromamba/envs/envA")
        [(chars "FOO", chars "bar")]) (chars "CONDA_DEFAULT_ENV")
      = some (basename false (chars "/opt/micromamba/envs/envA"))
    ∧ objGet (applyDefaults false (chars "/opt/micromamba/envs/envA")
        [(chars "FOO", chars "bar")]) (chars "CONDA_PREFIX")
      = some (chars "/opt/micromamba/envs/envA") :=
  ⟨(defaulting_amended false (chars "/opt/micromamba/envs/envA")
      [(chars "FOO", chars "bar")]).1 (by decide),
   (defaulting_amended false (chars "/opt/micromamba/envs/envA")
      [(chars "FOO", chars "bar")]).2.1 (by decide)⟩

/-- C7, counterexample to the claim as stated: the writer escapes only
double quotes, not backslashes, so for the mapping `{A: "\"}` (a single
backslash value) the written line is `A="\"` — the backslash fuses with
the closing quote into an escaped quote, and a standard reader that
unescapes backslash-quote cannot recover the mapping. -/
theorem env_roundtrip_backslash_counterexample :
    readEnvContent (writeEnvContent [(chars "A", chars "\\")])
      ≠ some [(chars "A", chars "\\")] := by decide

/-- C7, amended: for every variable mapping whose names are non-empty and
contain no `=` and no newline, and whose values contain no backslash and
no newline, writing it with `writeEnvFile` (one `NAME="value"` line per
variable with internal double quotes backslash-escaped) and re-parsing the
produced text with a standard `NAME="value"` reader that unescapes
backslash-quote yields the original mapping, including for values that
contain double-quote characters. -/
theorem env_roundtrip_amended :
    ∀ (m : List (List Char × List Char)),
      (∀ p ∈ m, p.1 ≠ [] ∧ '=' ∉ p.1 ∧ '\n' ∉ p.1) →
      (∀ p ∈ m, '\\' ∉ p.2 ∧ '\n' ∉ p.2) →
      readEnvContent (writeEnvContent m) = some m := by
  intro m
  induction m with
  | nil => intro _ _; rfl
  | cons p m ih =>
    intro hk hv
    obtain ⟨hk1, hk2, hk3⟩ := hk p (List.mem_cons_self p m)
    obtain ⟨hv1, hv2⟩ := hv p (List.mem_cons_self p m)
    have ihm := ih (fun q hq => hk q (List.mem_cons_of_mem p hq))
      (fun q hq => hv q (List.mem_cons_of_mem p hq))
    set body := p.1 ++ '=' :: '"' :: (escapeQuotes p.2 ++ ['"']) with hbodydef
    have hnl_body : '\n' ∉ body := by
      intro hmem
      rcases List.mem_append.mp hmem with h | h
      · exact hk3 h
      · rw [List.mem_cons] at h
        rcases h with h | h
        · exact absurd h (by decide)
        · rw [List.mem_cons] at h
          rcases h with h | h
          · exact absurd h (by decide)
          · rcases List.mem_append.mp h with h | h
            · rcases mem_escapeQuotes p.2 '\n' h with h' | h'
              · exact hv2 h'
              · exact absurd h' (by decide)
            · simp at h
    have hsplit1 : envLineOf p ++ writeEnvContent m
        = body ++ '\n' :: writeEnvContent m := by
      simp [envLineOf, hbodydef]
    have h1 := splitOnC_sepHead (fun c => c = '\n') '\n' (writeEnvContent m)
      (by simp)
    have h2 := splitOnC_noSep_append (fun c => c = '\n') body
      ('\n' :: writeEnvContent m) []
      (splitOnC (fun c => c = '\n') (writeEnvContent m))
      (fun c hc => decide_eq_false (fun hcn => hnl_body (hcn ▸ hc))) h1
    have hsep : splitOnC (fun c => c = '\n') (body ++ '\n' :: writeEnvContent m)
        = body :: splitOnC (fun c => c = '\n') (writeEnvContent m) := by
      simpa using h2
    have hbne : body ≠ [] := by
      rw [hbodydef]
      simp
    rw [writeEnvContent_cons]
    unfold readEnvContent
    rw [hsplit1, hsep, List.filter_cons_of_pos (by simpa using hbne)]
    unfold readEnvContent at ihm
    show readAll (body :: _) = _
    unfold readAll
    rw [hbodydef, readEnvLine_envLine p.1 p.2 hk1 hk2 hv1, ihm]

/-- Witness for C7's amended theorem at a concrete input whose value
contains a double quote. -/
theorem env_roundtrip_amended_witness :
    readEnvContent (writeEnvContent [(chars "FOO", chars "a\"b")])
      = some [(chars "FOO", chars "a\"b")] :=
  env_roundtrip_amended [(chars "FOO", chars "a\"b")] (by decide) (by decide)

/-- C5: the catalog listing (`content.split(/[\r\n]+/)` filtered of blank
lines) returns the file's entries in file order with blank (all-whitespace)
lines removed, treating any run of CR and/or LF — including mixed line
endings — as a single separator: for every list of entry lines (none
containing CR/LF) joined by arbitrary non-empty CR/LF separator runs, the
result is exactly the entry list with blank entries removed — in
particular no deduplication happens and every entry (existing on disk or
not) passes through unchanged.  Concretely, mixed separators and a
duplicated entry: `"a\r\n\r\nx\rx\n  \nb"` lists `a, x, x, b`. -/
theorem catalog_order_blanks_lineendings :
    (∀ (L seps : List (List Char)),
      (∀ l ∈ L, ∀ c ∈ l, isNL c = false) →
      (∀ s ∈ seps, s ≠ [] ∧ ∀ c ∈ s, isNL c = true) →
      seps.length + 1 = L.length →
      catalogLines (interleave L seps)
        = L.filter (fun l => !(trim l).isEmpty))
    ∧ catalogLines (chars "a\r\n\r\nx\rx\n  \nb")
        = [chars "a", chars "x", chars "x", chars "b"] := by
  refine ⟨?_, by decide⟩
  intro L
  induction L with
  | nil =>
    intro seps _ _ hlen
    simp at hlen
  | cons l L ihL =>
    intro seps hL hseps hlen
    cases L with
    | nil =>
      have hseps0 : seps = [] := List.length_eq_zero.mp (by simpa using hlen)
      subst hseps0
      have hl : ∀ c ∈ l, isNL c = false := hL l (List.mem_cons_self l [])
      have hsr : splitRuns l = [l] := by
        have := splitRuns_noNL_append l [] [] [] hl rfl
        simpa using this
      show catalogLines (interleave [l] []) = _
      unfold catalogLines
      rw [show interleave [l] [] = l from rfl, hsr]
    | cons l2 L2 =>
      cases seps with
      | nil =>
        simp at hlen
      | cons s seps' =>
        have hs := hseps s (List.mem_cons_self s seps')
        have hl : ∀ c ∈ l, isNL c = false := hL l (List.mem_cons_self _ _)
        have hlen' : seps'.length + 1 = (l2 :: L2).length := by
          simp only [List.length_cons] at hlen ⊢
          omega
        obtain ⟨ts, hts, hfil⟩ :=
          splitRuns_sep_filter (fun l => !(trim l).isEmpty) (by decide)
            s (interleave (l2 :: L2) seps') hs.1 hs.2
        have hsr := splitRuns_noNL_append l
          (s ++ interleave (l2 :: L2) seps') [] ts hl hts
        have hIH := ihL seps' (fun x hx => hL x (List.mem_cons_of_mem _ hx))
          (fun x hx => hseps x (List.mem_cons_of_mem _ hx)) hlen'
        show catalogLines (l ++ s ++ interleave (l2 :: L2) seps') = _
        unfold catalogLines at hIH ⊢
        rw [List.append_assoc, hsr, List.append_nil]
        rw [List.filter_cons, List.filter_cons, hfil, hIH]

/-- Witness for C5's general part at a concrete input with mixed line
endings, an empty line, a whitespace-only line and a duplicated entry. -/
theorem catalog_order_blanks_lineendings_witness :
    catalogLines (interleave
        [chars "a", [], chars "x", chars "x", chars "  "]
        [chars "\r\n", chars "\r", chars "\n", chars "\r\n"])
      = [chars "a", chars "x", chars "x"] := by
  rw [catalog_order_blanks_lineendings.1
    [chars "a", [], chars "x", chars "x", chars "  "]
    [chars "\r\n", chars "\r", chars "\n", chars "\r\n"]
    (by decide) (by decide) (by decide)]
  decide

/-- C2: Classification precedence: a registry entry whose normalized path
starts with both the normalized workspace root and the normalized root
prefix is placed in the workspace group and never in the global
(root-prefix) group, and the two groups are disjoint as sets of entry
paths. -/
theorem classification_precedence (isWin : Bool) (wsRoot rootPfx : List Char)
    (stored : Option (List Char)) (lines : List (List Char)) :
    (∀ l ∈ lines,
      (normalize isWin wsRoot).isPrefixOf (normalize isWin l) = true →
      (normalize isWin rootPfx).isPrefixOf (normalize isWin l) = true →
        normalize isWin l ∈
          ((buildLists isWin (some wsRoot) rootPfx stored lines).1.map Item.envPath)
        ∧ normalize isWin l ∉
          ((buildLists isWin (some wsRoot) rootPfx stored lines).2.1.map Item.envPath))
    ∧ (∀ q, q ∈ ((buildLists isWin (some wsRoot) rootPfx stored lines).1.map Item.envPath) →
        q ∉ ((buildLists isWin (some wsRoot) rootPfx stored lines).2.1.map Item.envPath)) := by
  have hA : ∀ q, q ∈ ((buildLists isWin (some wsRoot) rootPfx stored lines).1.map Item.envPath) →
      wsTestB ((some wsRoot).map (normalize isWin)) q = true := by
    intro q hq
    rcases (mem_ws_paths isWin (some wsRoot) rootPfx stored lines q).mp hq with ⟨l, _, _, hw⟩
    exact hw
  have hB : ∀ q, q ∈ ((buildLists isWin (some wsRoot) rootPfx stored lines).2.1.map Item.envPath) →
      wsTestB ((some wsRoot).map (normalize isWin)) q = false := by
    intro q hq
    rcases (mem_rt_paths isWin (some wsRoot) rootPfx stored lines q).mp hq with ⟨l, _, _, hw, _⟩
    exact hw
  have hdisjoint : ∀ q, q ∈ ((buildLists isWin (some wsRoot) rootPfx stored lines).1.map Item.envPath) →
      q ∉ ((buildLists isWin (some wsRoot) rootPfx stored lines).2.1.map Item.envPath) := by
    intro q hq hq'
    have h1 := hA q hq
    have h2 := hB q hq'
    rw [h1] at h2
    exact Bool.noConfusion h2
  refine ⟨?_, hdisjoint⟩
  intro l hl hwpre _
  have hmem : normalize isWin l ∈
      ((buildLists isWin (some wsRoot) rootPfx stored lines).1.map Item.envPath) := by
    exact (mem_ws_paths isWin (some wsRoot) rootPfx stored lines _).mpr
      ⟨l, hl, rfl, hwpre⟩
  exact ⟨hmem, hdisjoint _ hmem⟩

/-- Witness for C2 at a concrete input where an entry lies under both the
workspace root and the root prefix. -/
theorem classification_precedence_witness :
    normalize false (chars "/w/a") ∈
      ((buildLists false (some (chars "/w")) (chars "/w") none
          [chars "/w/a"]).1.map Item.envPath)
    ∧ normalize false (chars "/w/a") ∉
      ((buildLists false (some (chars "/w")) (chars "/w") none
          [chars "/w/a"]).2.1.map Item.envPath) :=
  (classification_precedence false (chars "/w") (chars "/w") none
    [chars "/w/a"]).1 (chars "/w/a") (by decide) (by decide) (by decide)

/-- C6, counterexample to "at most one entry is ever marked active": the
catalog performs no deduplication, so a registry file containing the
active path twice produces a listing with two entries marked active. -/
theorem active_marking_counterexample :
    (((buildLists false (some (chars "/w")) (chars "/r")
        (some (chars "/w/a")) [chars "/w/a", chars "/w/a"]).1
      ++ (buildLists false (some (chars "/w")) (chars "/r")
        (some (chars "/w/a")) [chars "/w/a", chars "/w/a"]).2.1).filter
      markedActive).length = 2 := by decide

/-- C6, amended: an entry of the produced listing is marked active iff its
normalized path equals the normalized stored active path; consequently,
when the registry entries' normalized paths are pairwise distinct, at most
one entry of the listing is marked active (with duplicate registry
entries, several copies of the same path may be marked — see the
counterexample). -/
theorem active_marking_amended (isWin : Bool) (wsOpt : Option (List Char))
    (rootPfx : List Char) (stored : Option (List Char))
    (lines : List (List Char)) :
    (∀ it ∈ (buildLists isWin wsOpt rootPfx stored lines).1
          ++ (buildLists isWin wsOpt rootPfx stored lines).2.1,
        (markedActive it = true ↔ it.envPath = activeKey isWin stored))
    ∧ ((lines.map (normalize isWin)).Nodup →
        (((buildLists isWin wsOpt rootPfx stored lines).1
            ++ (buildLists isWin wsOpt rootPfx stored lines).2.1).filter
          markedActive).length ≤ 1) := by
  constructor
  · intro it hit
    obtain ⟨l, _, hitl⟩ :=
      exists_mkItem_of_mem isWin wsOpt rootPfx stored lines it hit
    subst hitl
    rw [markedActive_mkItem, mkItem_envPath]
    constructor
    · intro h
      exact (eq_of_beq h).symm
    · intro h
      exact beq_iff_eq.mpr h.symm
  · intro hnodup
    rw [List.filter_append, List.length_append, buildLists_ws, buildLists_rt]
    have hle := marked_count_le isWin (wsOpt.map (normalize isWin))
      (activeKey isWin stored)
      (if rootPfx = [] then [] else normalize isWin rootPfx) lines
    exact le_trans hle (nodup_filter_beq_le_one _ hnodup _)

/-- Witness for C6's amended theorem at a concrete duplicate-free registry. -/
theorem active_marking_amended_witness :
    (((buildLists false (some (chars "/w")) (chars "/r") (some (chars "/w/a"))
        [chars "/w/a", chars "/r/z"]).1
      ++ (buildLists false (some (chars "/w")) (chars "/r") (some (chars "/w/a"))
        [chars "/w/a", chars "/r/z"]).2.1).filter markedActive).length ≤ 1 :=
  (active_marking_amended false (some (chars "/w")) (chars "/r")
    (some (chars "/w/a")) [chars "/w/a", chars "/r/z"]).2 (by decide)

/-- C9, counterexample to idempotence on Windows: `normalize` there is
`path.win32.normalize` followed by `toLowerCase`; for `./c:` the first
normalization yields the bare drive designator `c:` (the `./` segment is
resolved away, and drive parsing only happens at the very start of the
input), but re-normalizing `c:` parses it as a drive root with an empty
tail and yields `c:.`. -/
theorem normalize_win32_counterexample :
    normalize true (normalize true (chars "./c:")) ≠ normalize true (chars "./c:") := by
  decide

/-- C9, amended: on non-Windows platforms the extension's `normalize`
(Node `path.posix.normalize`, no case folding) is idempotent:
`normalize (normalize p) = normalize p` for every path string `p`.  (On
Windows, Node's drive-designator parsing breaks idempotence — see the
counterexample.) -/
theorem normalize_posix_idempotent (p : List Char) :
    normalize false (normalize false p) = normalize false p := by
  show posixNormalize (posixNormalize p) = posixNormalize p
  exact posixNormalize_idem p

/-- Witness for C8 at a concrete input: unset settings and a failing shell
call resolve to the default executable. -/
theorem config_memoized_and_default_exe_witness :
    (getMambaConfig ⟨[], [], []⟩ (chars "/home/u") (Except.error ()) none).1.exe
      = chars "micromamba" :=
  (config_memoized_and_default_exe ⟨[], [], []⟩ ⟨[], [], []⟩ (chars "/home/u")
    (chars "/home/u") (Except.error ()) (Except.error ())
    ⟨[], chars "micromamba", []⟩).2.2.2 rfl (Or.inl rfl)

end Micromamba
